import Mathlib

/-!
Verification of the evacuation-network optimization engine
(repository: Optimization-Project, files main.py / main_final.py / figures.py).

The repository builds a capacitated, weighted directed network describing a
building, computes a maximum flow from entrance N to exit S, a minimum-cost
flow of exactly that amount, and repeats both on a variant with corridor
A to B removed.

The graph construction, the default edge list, the cost derivation and the
scenario wiring are embedded below directly from the source.  The two flow
solvers are library calls (networkx maximum_flow / min_cost_flow) whose code
is not part of the repository; they are modelled from the specification as
an augmenting-path engine over the residual graph.  Python floats are
modelled by exact rationals; Python round is modelled by Mathlib round
(they agree at every value arising here, none of which is a half-integer).
-/

namespace Evac

/-- A directed edge of the built network: endpoints, capacity
(people per minute) and the integer scaled cost (weight). -/
structure Edge where
  u : String
  v : String
  cap : Nat
  cost : Int
deriving DecidableEq

/-- A graph is its edge list in insertion order (as in the source, where
edges implicitly introduce their endpoint nodes). -/
abbrev Graph : Type := List Edge

/-- An edge record of the external topology input, embedded from the
EdgeSpec dataclass of main.py: endpoints, capacity, physical length and
kind (corridor, ramp or stairs). -/
structure EdgeSpec where
  u : String
  v : String
  capacity : Nat
  length : ℚ
  kind : String
deriving DecidableEq

/-- Placeholder length per kind, embedded from the local function L inside
default_edges in main.py. -/
def Lkind (kind : String) : ℚ :=
  if kind = "corridor" then 12 else if kind = "ramp" then 14 else 10

/-- The baseline network edge list, embedded from default_edges in
main.py (identical to the list in main_final.py and figures.py). -/
def default_edges : List EdgeSpec :=
  [⟨"N", "A", 120, Lkind "corridor", "corridor"⟩,
   ⟨"A", "B", 60, Lkind "corridor", "corridor"⟩,
   ⟨"A", "C", 60, Lkind "corridor", "corridor"⟩,
   ⟨"B", "S1", 40, Lkind "corridor", "corridor"⟩,
   ⟨"C", "S2", 40, Lkind "corridor", "corridor"⟩,
   ⟨"S1", "D", 40, Lkind "stairs", "stairs"⟩,
   ⟨"S2", "D", 40, Lkind "stairs", "stairs"⟩,
   ⟨"D", "S", 120, Lkind "corridor", "corridor"⟩,
   ⟨"B", "C", 20, 8, "corridor"⟩,
   ⟨"C", "B", 20, 8, "corridor"⟩,
   ⟨"S1", "S2", 15, 6, "corridor"⟩,
   ⟨"S2", "S1", 15, 6, "corridor"⟩]

/-- Integer scaled cost of one edge, embedded from build_graph in main.py:
gamma is alpha_stairs for stairs and 0 otherwise, T = length / v + gamma,
and the stored weight is int(round(T * 10)). -/
def edgeCost (alphaStairs v length : ℚ) (kind : String) : Int :=
  round ((length / v + (if kind = "stairs" then alphaStairs else 0)) * 10)

/-- Graph construction, embedded from build_graph in main.py: one directed
edge per record of default_edges, carrying its capacity and scaled cost. -/
def build_graph (alphaStairs v : ℚ) : Graph :=
  default_edges.map fun e => ⟨e.u, e.v, e.capacity, edgeCost alphaStairs v e.length e.kind⟩

/-- Edge removal, embedded from the scenario construction in main.py
(G_scen.remove_edge("A", "B") guarded by has_edge): drops the edge with the
given ordered endpoint pair and is a no-op when it is absent. -/
def removeEdge (g : Graph) (a b : String) : Graph :=
  List.filter (fun e => !(e.u == a && e.v == b)) g

/-- The node list of a graph in first-appearance order: edges implicitly
introduce their endpoints. -/
def nodesList (g : Graph) : List String :=
  (List.flatMap g fun e => [e.u, e.v]).dedup

/-! ### Flows and their basic quantities -/

/-- A flow assignment: one non-negative amount per edge, positionally
parallel to the edge list of the graph. -/
abbrev Flow : Type := List Nat

/-- The all-zero assignment. -/
def zeroFlow (g : Graph) : Flow := List.replicate (List.length g) 0

/-- Edge list and flow list zipped together. -/
def pairs (g : Graph) (f : Flow) : List (Edge × Nat) := List.zip g f

/-- Total flow leaving node w. -/
def flowOut (g : Graph) (f : Flow) (w : String) : Int :=
  ((pairs g f).map fun pr => if pr.1.u = w then (pr.2 : Int) else 0).sum

/-- Total flow entering node w. -/
def flowIn (g : Graph) (f : Flow) (w : String) : Int :=
  ((pairs g f).map fun pr => if pr.1.v = w then (pr.2 : Int) else 0).sum

/-- Net inflow of node w (inflow minus outflow). -/
def excess (g : Graph) (f : Flow) (w : String) : Int :=
  flowIn g f w - flowOut g f w

/-- The value of a flow read at the source: flow leaving s minus flow
entering s (the quantity the solvers report). -/
def flowValue (g : Graph) (f : Flow) (s : String) : Int :=
  flowOut g f s - flowIn g f s

/-- Capacity respect: the assignment has one entry per edge and each entry
is at most the capacity of its edge (entries are Nat, hence at least 0). -/
def Feasible (g : Graph) (f : Flow) : Prop :=
  List.length f = List.length g ∧ ∀ pr ∈ pairs g f, pr.2 ≤ pr.1.cap

instance (g : Graph) (f : Flow) : Decidable (Feasible g f) := by
  unfold Feasible
  infer_instance

/-- Conservation away from s and t: every node of the graph other than s
and t has zero net inflow.  (A string that is not a node of the graph
touches no edge and has zero net inflow trivially.) -/
def Conserves (g : Graph) (f : Flow) (s t : String) : Prop :=
  ∀ w ∈ nodesList g, w ≠ s → w ≠ t → excess g f w = 0

instance (g : Graph) (f : Flow) (s t : String) : Decidable (Conserves g f s t) := by
  unfold Conserves
  infer_instance

/-- Entry of the flow list at index i (0 outside the list). -/
def fAt (f : Flow) (i : Nat) : Nat := List.getD f i 0

/-- Edge of the graph at index i (a dummy edge outside the list). -/
def edgeAt (g : Graph) (i : Nat) : Edge := List.getD g i ⟨"", "", 0, 0⟩

/-! ### Residual graph

Modelled from the spec: the residual graph used by both solvers.  Each
edge i contributes a forward arc (from u to v, residual capacity equal
to capacity minus flow) and a backward arc (from v to u, residual
capacity equal to the flow already placed). -/

/-- A residual arc: the index of the underlying edge and its direction
(true = forward). -/
structure Step where
  i : Nat
  fwd : Bool
deriving DecidableEq

/-- Start node of a residual arc. -/
def stepSrc (g : Graph) (st : Step) : String :=
  if st.fwd then (edgeAt g st.i).u else (edgeAt g st.i).v

/-- End node of a residual arc. -/
def stepDst (g : Graph) (st : Step) : String :=
  if st.fwd then (edgeAt g st.i).v else (edgeAt g st.i).u

/-- Residual capacity of an arc under flow f. -/
def resCap (g : Graph) (f : Flow) (st : Step) : Nat :=
  if st.fwd then (edgeAt g st.i).cap - fAt f st.i else fAt f st.i

/-- All residual arcs of positive residual capacity. -/
def arcs (g : Graph) (f : Flow) : List Step :=
  List.flatMap (List.range (List.length g)) fun i =>
    (if 1 ≤ resCap g f ⟨i, true⟩ then [Step.mk i true] else []) ++
    (if 1 ≤ resCap g f ⟨i, false⟩ then [Step.mk i false] else [])

/-- Checks that p is a residual path from a to b: indices in range,
consecutive endpoints chained, every arc of positive residual capacity. -/
def pathOk (g : Graph) (f : Flow) : String → String → List Step → Bool
  | a, b, [] => a == b
  | a, b, st :: p =>
    decide (st.i < List.length g) && (stepSrc g st == a) &&
      decide (1 ≤ resCap g f st) && pathOk g f (stepDst g st) b p

/-- The node sequence visited by a path starting at a. -/
def pathNodes (g : Graph) (a : String) (p : List Step) : List String :=
  a :: p.map (stepDst g)

/-! ### Breadth-style search for an augmenting path

Modelled from the spec: the solvers repeatedly find an augmenting path of
positive residual capacity from source to sink by breadth-first search.
The search state is an association list mapping each reached node to the
first residual path found to it. -/

/-- Search state: reached nodes with a residual path to each. -/
abbrev Found : Type := List (String × List Step)

/-- First binding of a key in the search state. -/
def lookupA : Found → String → Option (List Step)
  | [], _ => none
  | (w, p) :: fd, x => if w = x then some p else lookupA fd x

/-- The reached nodes, in order of first discovery. -/
def keysA (fd : Found) : List String := fd.map Prod.fst

/-- Relax one residual arc: if its start is reached and its end is not,
record the end with the extended path. -/
def addArc (g : Graph) (fd : Found) (st : Step) : Found :=
  match lookupA fd (stepSrc g st) with
  | none => fd
  | some p =>
    if (lookupA fd (stepDst g st)).isSome then fd
    else fd ++ [(stepDst g st, p ++ [st])]

/-- One search round: relax every residual arc once. -/
def bfsRound (g : Graph) (f : Flow) (fd : Found) : Found :=
  (arcs g f).foldl (addArc g) fd

/-- Iterated search from the singleton state containing the source. -/
def bfsIter (g : Graph) (f : Flow) (s : String) : Nat → Found
  | 0 => [(s, [])]
  | n + 1 => bfsRound g f (bfsIter g f s n)

/-- Enough rounds to reach a fixpoint: the state can hold at most the
source plus every node of the graph. -/
def searchBound (g : Graph) : Nat := (nodesList g).length + 2

/-- An augmenting path from s to t, if the search reaches t. -/
def findAugPath (g : Graph) (f : Flow) (s t : String) : Option (List Step) :=
  lookupA (bfsIter g f s (searchBound g)) t

/-! ### Pushing flow along a residual path -/

/-- Push d units across one residual arc: a forward arc raises the flow of
its edge, a backward arc lowers it. -/
def pushStep (f : Flow) (st : Step) (d : Nat) : Flow :=
  List.set f st.i (if st.fwd then fAt f st.i + d else fAt f st.i - d)

/-- Push d units along a whole path. -/
def pushPath (f : Flow) (p : List Step) (d : Nat) : Flow :=
  p.foldl (fun fc st => pushStep fc st d) f

/-- Sum of all edge capacities: a bound on any flow value. -/
def totalCap (g : Graph) : Nat := (g.map Edge.cap).sum

/-- Minimum residual capacity along a path (a value larger than any
possible flow for the empty path, which only arises when s = t). -/
def bottleneck (g : Graph) (f : Flow) (p : List Step) : Nat :=
  (p.map (resCap g f)).foldr min (totalCap g + 1)

/-! ### The max-flow solver

Modelled from the spec: nx.maximum_flow (library code, not part of the
repository).  Augmenting-path method over the residual graph: repeatedly
find an augmenting path from source to sink by breadth-first search, push
the minimum residual capacity along it, stop when no augmenting path
exists.  Each augmentation pushes at least one unit, so totalCap + 1
rounds always reach that final state. -/

/-- Augmentation loop of the max-flow solver. -/
def mfLoop (g : Graph) (s t : String) : Nat → Flow → Flow
  | 0, f => f
  | fuel + 1, f =>
    match findAugPath g f s t with
    | none => f
    | some p => mfLoop g s t fuel (pushPath f p (bottleneck g f p))

/-- The assignment computed by the max-flow solver. -/
def maxFlowAssign (g : Graph) (s t : String) : Flow :=
  mfLoop g s t (totalCap g + 1) (zeroFlow g)

/-- The max-flow solver: flow value and one assignment achieving it. -/
def maximum_flow (g : Graph) (s t : String) : Int × Flow :=
  let f := maxFlowAssign g s t
  (flowValue g f s, f)

/-- Wrapper embedded from compute_max_flow in main.py: calls the solver
with the given source and sink (defaults N and S) and returns the integer
flow value with the assignment. -/
def compute_max_flow (g : Graph) (s : String := "N") (t : String := "S") : Int × Flow :=
  maximum_flow g s t

/-- Error kinds surfaced by the engine (spec section 7). -/
inductive Err where
  | infeasibleFlowError
  | validationError
deriving DecidableEq

/-! ### The min-cost-flow solver

Modelled from the spec: nx.min_cost_flow (library code, not part of the
repository), invoked by min_cost_for_flow with demand minus amount at the
source, plus amount at the sink and zero elsewhere.  Successive
augmentation along residual paths: while demand remains, find an
augmenting path from source to sink, push the minimum of the remaining
demand and the path bottleneck, and fail with InfeasibleFlowError when no
augmenting path remains.  Which optimal assignment the cost-guided path
choice of the library returns is not fixed here; path selection affects
only the returned assignment, never feasibility, capacity respect,
conservation or the achieved amount, which are the properties under
verification. -/

/-- Augmentation loop of the min-cost solver: fuel, remaining demand,
current flow.  The fuel never runs out when it starts at the demand,
because every augmentation moves at least one unit. -/
def mcLoop (g : Graph) (s t : String) : Nat → Nat → Flow → Except Err Flow
  | _, 0, f => .ok f
  | 0, _ + 1, _ => .error .infeasibleFlowError
  | fuel + 1, r + 1, f =>
    match findAugPath g f s t with
    | none => .error .infeasibleFlowError
    | some p =>
      let d := min (r + 1) (bottleneck g f p)
      mcLoop g s t fuel (r + 1 - d) (pushPath f p d)

/-- The min-cost-flow solver: an assignment meeting the whole demand, or
InfeasibleFlowError. -/
def min_cost_flow (g : Graph) (s t : String) (amount : Nat) : Except Err Flow :=
  mcLoop g s t amount amount (zeroFlow g)

/-- Total cost of an assignment: sum over edges of flow times weight,
embedded from the accumulation loop of min_cost_for_flow in main.py. -/
def totalCostOf (g : Graph) (f : Flow) : Int :=
  ((pairs g f).map fun pr => (pr.2 : Int) * pr.1.cost).sum

/-- Wrapper embedded from min_cost_for_flow in main.py: sends exactly
the requested amount from source to sink via node demands and reports the
total cost with the assignment. -/
def min_cost_for_flow (g : Graph) (amount : Nat) (s : String := "N") (t : String := "S") :
    Except Err (Int × Flow) :=
  (min_cost_flow g s t amount).map fun f => (totalCostOf g f, f)

/-! ### Basic lemmas about pairs, sums and the flow quantities -/

theorem pairs_length (g : Graph) (f : Flow) (h : List.length f = List.length g) :
    (pairs g f).length = List.length g := by
  simp [pairs, h]

theorem pairs_getElem (g : Graph) (f : Flow) (i : Nat)
    (hg : i < List.length g) (hf : i < List.length f)
    (hp : i < (pairs g f).length) :
    (pairs g f)[i] = (edgeAt g i, fAt f i) := by
  simp [pairs, edgeAt, fAt, List.getD_eq_getElem?_getD, List.getElem?_eq_getElem, hg, hf]

theorem pairs_set (g : Graph) (f : Flow) (i x : Nat)
    (hg : i < List.length g) (hf : i < List.length f) :
    pairs g (List.set f i x) = List.set (pairs g f) i (edgeAt g i, x) := by
  induction g generalizing f i with
  | nil => simp at hg
  | cons e g ih =>
    cases f with
    | nil => simp at hf
    | cons y f =>
      cases i with
      | zero => simp [pairs, edgeAt]
      | succ j =>
        simp only [List.set, pairs, List.zip_cons_cons, edgeAt, List.getD_cons_succ]
        have := ih f j (by simpa using hg) (by simpa using hf)
        simpa [pairs, edgeAt] using this

theorem sum_map_set {α : Type} (F : α → Int) (l : List α) (i : Nat) (a : α)
    (h : i < l.length) :
    ((List.set l i a).map F).sum = (l.map F).sum - F l[i] + F a := by
  induction l generalizing i with
  | nil => simp at h
  | cons x l ih =>
    cases i with
    | zero => simp; ring
    | succ j =>
      have hj : j < l.length := by simpa using h
      simp only [List.set, List.map_cons, List.sum_cons, ih j hj, List.getElem_cons_succ]
      ring

theorem fAt_set_self (f : Flow) (i x : Nat) (h : i < List.length f) :
    fAt (List.set f i x) i = x := by
  simp [fAt, List.getD_eq_getElem?_getD, List.getElem?_set_self, h]

theorem fAt_set_ne (f : Flow) (i j x : Nat) (h : i ≠ j) :
    fAt (List.set f i x) j = fAt f j := by
  simp [fAt, List.getD_eq_getElem?_getD, List.getElem?_set_ne, h]

theorem length_pushStep (f : Flow) (st : Step) (d : Nat) :
    List.length (pushStep f st d) = List.length f := by
  simp [pushStep]

/-- Feasibility in pointwise index form. -/
theorem feasible_iff (g : Graph) (f : Flow) :
    Feasible g f ↔
      List.length f = List.length g ∧ ∀ i < List.length g, fAt f i ≤ (edgeAt g i).cap := by
  constructor
  · rintro ⟨hl, hcap⟩
    refine ⟨hl, fun i hi => ?_⟩
    have hm : (edgeAt g i, fAt f i) ∈ pairs g f := by
      rw [← pairs_getElem g f i hi (by omega) (by simp [pairs]; omega)]
      exact List.getElem_mem _
    exact hcap _ hm
  · rintro ⟨hl, hcap⟩
    refine ⟨hl, fun pr hm => ?_⟩
    obtain ⟨i, hi, hpr⟩ := List.mem_iff_getElem.1 hm
    have hig : i < List.length g := by
      have := pairs_length g f hl
      omega
    have := pairs_getElem g f i hig (by omega) hi
    rw [this] at hpr
    have := hcap i hig
    rw [← hpr] at *
    simpa using this

theorem flowOut_set (g : Graph) (f : Flow) (i x : Nat)
    (hg : i < List.length g) (hf : i < List.length f) (w : String) :
    flowOut g (List.set f i x) w =
      flowOut g f w - (if (edgeAt g i).u = w then (fAt f i : Int) else 0)
        + (if (edgeAt g i).u = w then (x : Int) else 0) := by
  unfold flowOut
  rw [pairs_set g f i x hg hf,
    sum_map_set _ (pairs g f) i (edgeAt g i, x) (by simp [pairs]; omega),
    pairs_getElem g f i hg hf (by simp [pairs]; omega)]

theorem flowIn_set (g : Graph) (f : Flow) (i x : Nat)
    (hg : i < List.length g) (hf : i < List.length f) (w : String) :
    flowIn g (List.set f i x) w =
      flowIn g f w - (if (edgeAt g i).v = w then (fAt f i : Int) else 0)
        + (if (edgeAt g i).v = w then (x : Int) else 0) := by
  unfold flowIn
  rw [pairs_set g f i x hg hf,
    sum_map_set _ (pairs g f) i (edgeAt g i, x) (by simp [pairs]; omega),
    pairs_getElem g f i hg hf (by simp [pairs]; omega)]

theorem excess_pushStep (g : Graph) (f : Flow) (st : Step) (d : Nat)
    (hi : st.i < List.length g) (hl : List.length f = List.length g)
    (hres : d ≤ resCap g f st) (w : String) :
    excess g (pushStep f st d) w =
      excess g f w + (if stepDst g st = w then (d : Int) else 0)
        - (if stepSrc g st = w then (d : Int) else 0) := by
  have hf : st.i < List.length f := by omega
  obtain ⟨i, fwd⟩ := st
  cases fwd with
  | true =>
    have hps : pushStep f ⟨i, true⟩ d = List.set f i (fAt f i + d) := by
      simp [pushStep]
    have hsd : stepSrc g ⟨i, true⟩ = (edgeAt g i).u ∧ stepDst g ⟨i, true⟩ = (edgeAt g i).v := by
      simp [stepSrc, stepDst]
    unfold excess
    rw [hps, hsd.1, hsd.2, flowOut_set g f i _ hi hf w, flowIn_set g f i _ hi hf w]
    push_cast
    split_ifs <;> ring
  | false =>
    have hle : d ≤ fAt f i := by simpa [resCap] using hres
    have hps : pushStep f ⟨i, false⟩ d = List.set f i (fAt f i - d) := by
      simp [pushStep]
    have hsd : stepSrc g ⟨i, false⟩ = (edgeAt g i).v ∧ stepDst g ⟨i, false⟩ = (edgeAt g i).u := by
      simp [stepSrc, stepDst]
    have hcast : ((fAt f i - d : Nat) : Int) = (fAt f i : Int) - (d : Int) := by omega
    unfold excess
    rw [hps, hsd.1, hsd.2, flowOut_set g f i _ hi hf w, flowIn_set g f i _ hi hf w, hcast]
    split_ifs <;> ring

theorem resCap_eq_of_fAt_eq (g : Graph) (f₁ f₂ : Flow) (st : Step)
    (h : fAt f₁ st.i = fAt f₂ st.i) : resCap g f₁ st = resCap g f₂ st := by
  unfold resCap
  rw [h]

/-! ### Chained residual paths and pushing along them -/

/-- The pure connectivity content of a path: consecutive arcs chain from a
to b. -/
def Chain (g : Graph) : String → String → List Step → Prop
  | a, b, [] => a = b
  | a, b, st :: p => stepSrc g st = a ∧ Chain g (stepDst g st) b p

theorem pathOk_iff (g : Graph) (f : Flow) (b : String) :
    ∀ (p : List Step) (a : String),
      pathOk g f a b p = true ↔
        Chain g a b p ∧ ∀ st ∈ p, st.i < List.length g ∧ 1 ≤ resCap g f st := by
  intro p
  induction p with
  | nil => simp [pathOk, Chain, beq_iff_eq]
  | cons st p ih =>
    intro a
    simp only [pathOk, Chain, Bool.and_eq_true, decide_eq_true_eq, beq_iff_eq,
      List.mem_cons, ih (stepDst g st)]
    constructor
    · rintro ⟨⟨⟨h1, h2⟩, h3⟩, h4, h5⟩
      exact ⟨⟨h2, h4⟩, fun x hx => hx.elim (fun hx => hx ▸ ⟨h1, h3⟩) (h5 x)⟩
    · rintro ⟨⟨h2, h4⟩, h5⟩
      have := h5 st (Or.inl rfl)
      exact ⟨⟨⟨this.1, h2⟩, this.2⟩, h4, fun x hx => h5 x (Or.inr hx)⟩

theorem pushPath_cons (f : Flow) (st : Step) (p : List Step) (d : Nat) :
    pushPath f (st :: p) d = pushPath (pushStep f st d) p d := rfl

/-- Pushing d units along a chained path of pairwise distinct edge indices
whose every arc has residual capacity at least d keeps the assignment
within capacities and moves net inflow d from the start node to the end
node, leaving every other node untouched. -/
theorem pushPath_props (g : Graph) (d : Nat) :
    ∀ (p : List Step) (f : Flow) (a b : String),
      List.length f = List.length g →
      (∀ i < List.length g, fAt f i ≤ (edgeAt g i).cap) →
      (p.map Step.i).Nodup →
      (∀ st ∈ p, st.i < List.length g ∧ d ≤ resCap g f st) →
      Chain g a b p →
      List.length (pushPath f p d) = List.length g ∧
      (∀ i < List.length g, fAt (pushPath f p d) i ≤ (edgeAt g i).cap) ∧
      ∀ w, excess g (pushPath f p d) w =
        excess g f w + (if b = w then (d : Int) else 0) - (if a = w then (d : Int) else 0) := by
  intro p
  induction p with
  | nil =>
    intro f a b hl hcap _ _ hchain
    have hab : a = b := hchain
    subst hab
    have hpp : pushPath f [] d = f := rfl
    refine ⟨by rw [hpp]; exact hl, by rw [hpp]; exact hcap, fun w => ?_⟩
    rw [hpp]
    split_ifs <;> ring
  | cons st p ih =>
    intro f a b hl hcap hnd hall hchain
    obtain ⟨hsrc, hchain2⟩ := hchain
    obtain ⟨hi, hres⟩ := hall st (List.mem_cons_self st p)
    have hf : st.i < List.length f := by omega
    have hl1 : List.length (pushStep f st d) = List.length g := by
      rw [length_pushStep]; exact hl
    have hcap1 : ∀ i < List.length g, fAt (pushStep f st d) i ≤ (edgeAt g i).cap := by
      intro i hig
      by_cases hii : st.i = i
      · subst hii
        have hv : fAt (pushStep f st d) st.i =
            if st.fwd then fAt f st.i + d else fAt f st.i - d := by
          unfold pushStep
          rw [fAt_set_self f st.i _ hf]
        rw [hv]
        have hc := hcap st.i hi
        cases hb : st.fwd with
        | true =>
          rw [if_pos rfl]
          have : d ≤ (edgeAt g st.i).cap - fAt f st.i := by
            unfold resCap at hres
            rwa [if_pos hb] at hres
          omega
        | false =>
          rw [if_neg (by simp)]
          omega
      · unfold pushStep
        rw [fAt_set_ne f st.i i _ hii]
        exact hcap i hig
    have hnd2 : (p.map Step.i).Nodup := (List.nodup_cons.1 hnd).2
    have hmem : st.i ∉ p.map Step.i := (List.nodup_cons.1 hnd).1
    have hall2 : ∀ x ∈ p, x.i < List.length g ∧ d ≤ resCap g (pushStep f st d) x := by
      intro x hx
      obtain ⟨hxi, hxres⟩ := hall x (List.mem_cons_of_mem st hx)
      refine ⟨hxi, ?_⟩
      rw [resCap_eq_of_fAt_eq g (pushStep f st d) f x ?_]
      · exact hxres
      · unfold pushStep
        refine fAt_set_ne f st.i x.i _ fun hc => hmem ?_
        rw [hc]
        exact List.mem_map_of_mem Step.i hx
    obtain ⟨hL, hC, hE⟩ := ih (pushStep f st d) (stepDst g st) b hl1 hcap1 hnd2 hall2 hchain2
    rw [pushPath_cons]
    refine ⟨hL, hC, fun w => ?_⟩
    rw [hE w, excess_pushStep g f st d hi hl hres w, hsrc]
    ring

/-! ### The zero flow and the good-flow invariant -/

theorem length_zeroFlow (g : Graph) : List.length (zeroFlow g) = List.length g := by
  simp [zeroFlow]

theorem fAt_zeroFlow (g : Graph) (i : Nat) : fAt (zeroFlow g) i = 0 := by
  unfold zeroFlow fAt
  by_cases h : i < List.length g
  · simp [List.getD_eq_getElem?_getD, List.getElem?_eq_getElem, h]
  · simp [List.getD_eq_getElem?_getD, List.getElem?_eq_none_iff.2 (by simpa using h)]

theorem flowOut_zeroFlow (g : Graph) (w : String) : flowOut g (zeroFlow g) w = 0 := by
  apply List.sum_eq_zero
  intro x hx
  obtain ⟨pr, hpr, rfl⟩ := List.mem_map.1 hx
  have h2 : pr.2 ∈ List.replicate (List.length g) 0 := (List.of_mem_zip hpr).2
  have : pr.2 = 0 := (List.eq_of_mem_replicate h2)
  simp [this]

theorem flowIn_zeroFlow (g : Graph) (w : String) : flowIn g (zeroFlow g) w = 0 := by
  apply List.sum_eq_zero
  intro x hx
  obtain ⟨pr, hpr, rfl⟩ := List.mem_map.1 hx
  have h2 : pr.2 ∈ List.replicate (List.length g) 0 := (List.of_mem_zip hpr).2
  have : pr.2 = 0 := (List.eq_of_mem_replicate h2)
  simp [this]

theorem excess_zeroFlow (g : Graph) (w : String) : excess g (zeroFlow g) w = 0 := by
  unfold excess
  rw [flowOut_zeroFlow, flowIn_zeroFlow]
  ring

theorem flowValue_zeroFlow (g : Graph) (s : String) : flowValue g (zeroFlow g) s = 0 := by
  unfold flowValue
  rw [flowOut_zeroFlow, flowIn_zeroFlow]
  ring

theorem flowValue_eq_neg_excess (g : Graph) (f : Flow) (s : String) :
    flowValue g f s = -excess g f s := by
  unfold flowValue excess
  ring

/-- The invariant both solver loops maintain: right length, capacities
respected, and zero net inflow everywhere but at s and t. -/
def GoodFlow (g : Graph) (f : Flow) (s t : String) : Prop :=
  List.length f = List.length g ∧
  (∀ i < List.length g, fAt f i ≤ (edgeAt g i).cap) ∧
  ∀ w, w ≠ s → w ≠ t → excess g f w = 0

theorem goodFlow_zeroFlow (g : Graph) (s t : String) : GoodFlow g (zeroFlow g) s t :=
  ⟨length_zeroFlow g, fun i _ => by rw [fAt_zeroFlow]; omega,
   fun w _ _ => excess_zeroFlow g w⟩

theorem goodFlow_feasible (g : Graph) (f : Flow) (s t : String) (h : GoodFlow g f s t) :
    Feasible g f :=
  (feasible_iff g f).2 ⟨h.1, h.2.1⟩

theorem goodFlow_conserves (g : Graph) (f : Flow) (s t : String) (h : GoodFlow g f s t) :
    Conserves g f s t :=
  fun w _ hws hwt => h.2.2 w hws hwt

/-! ### Distinctness of edge indices along a node-simple path -/

theorem pathNodes_length (g : Graph) (a : String) (p : List Step) :
    (pathNodes g a p).length = p.length + 1 := by
  simp [pathNodes]

theorem pathNodes_dst_getElem (g : Graph) (a : String) (p : List Step)
    (j : Nat) (h : j < p.length) (h2 : j + 1 < (pathNodes g a p).length) :
    (pathNodes g a p)[j + 1] = stepDst g p[j] := by
  simp [pathNodes]

theorem chain_src_getElem (g : Graph) :
    ∀ (p : List Step) (a b : String), Chain g a b p →
      ∀ (j : Nat) (h : j < p.length) (h2 : j < (pathNodes g a p).length),
        stepSrc g p[j] = (pathNodes g a p)[j] := by
  intro p
  induction p with
  | nil => intro a b _ j h; simp at h
  | cons st p ih =>
    intro a b hch j h h2
    obtain ⟨hsrc, hch2⟩ := hch
    cases j with
    | zero => simpa [pathNodes] using hsrc
    | succ k =>
      have hk : k < p.length := by simpa using h
      have hk2 : k < (pathNodes g (stepDst g st) p).length := by
        simp [pathNodes]
        omega
      have := ih (stepDst g st) b hch2 k hk hk2
      simpa [pathNodes] using this

/-- Two different positions of a node-simple chained path never use the
same edge index: equal indices would force a repeated node. -/
theorem steps_index_nodup (g : Graph) (p : List Step) (a b : String)
    (hch : Chain g a b p) (hnd : (pathNodes g a p).Nodup) :
    (p.map Step.i).Nodup := by
  have hlen : (pathNodes g a p).length = p.length + 1 := pathNodes_length g a p
  have hne : ∀ (i j : Nat) (hi : i < (pathNodes g a p).length)
      (hj : j < (pathNodes g a p).length), i < j →
      (pathNodes g a p)[i] ≠ (pathNodes g a p)[j] := by
    have := hnd
    unfold List.Nodup at this
    rw [List.pairwise_iff_getElem] at this
    exact this
  unfold List.Nodup
  rw [List.pairwise_iff_getElem]
  intro j k hj hk hjk
  simp only [List.getElem_map]
  intro heq
  have hjp : j < p.length := by simpa using hj
  have hkp : k < p.length := by simpa using hk
  have hj0 : j < (pathNodes g a p).length := by rw [pathNodes_length]; omega
  have hj1 : j + 1 < (pathNodes g a p).length := by rw [pathNodes_length]; omega
  have hk1 : k + 1 < (pathNodes g a p).length := by rw [pathNodes_length]; omega
  by_cases hdir : p[j].fwd = p[k].fwd
  · have hdst : stepDst g p[j] = stepDst g p[k] := by
      unfold stepDst
      rw [heq, hdir]
    have := hne (j + 1) (k + 1) (by omega) (by omega) (by omega)
    rw [pathNodes_dst_getElem g a p j hjp hj1, pathNodes_dst_getElem g a p k hkp hk1] at this
    exact this hdst
  · have hsd : stepSrc g p[j] = stepDst g p[k] := by
      unfold stepSrc stepDst
      rw [heq]
      rcases Bool.eq_false_or_eq_true p[j].fwd with h1 | h1 <;>
        rcases Bool.eq_false_or_eq_true p[k].fwd with h2 | h2 <;>
        simp [h1, h2] at hdir ⊢
    have := hne j (k + 1) (by omega) (by omega) (by omega)
    rw [pathNodes_dst_getElem g a p k hkp hk1] at this
    rw [chain_src_getElem g p a b hch j hjp hj0] at hsd
    exact this hsd

/-! ### Lemmas about the search state -/

theorem lookupA_isSome_iff (fd : Found) (x : String) :
    (lookupA fd x).isSome ↔ x ∈ keysA fd := by
  induction fd with
  | nil => simp [lookupA, keysA]
  | cons e fd ih =>
    obtain ⟨w, p⟩ := e
    by_cases h : w = x
    · subst h
      simp [lookupA, keysA]
    · simp [lookupA, keysA, h, ih, Ne.symm h]

theorem lookupA_eq_none_iff (fd : Found) (x : String) :
    lookupA fd x = none ↔ x ∉ keysA fd := by
  rw [← lookupA_isSome_iff]
  cases lookupA fd x <;> simp

theorem lookupA_some_mem (fd : Found) (x : String) (p : List Step)
    (h : lookupA fd x = some p) : (x, p) ∈ fd := by
  induction fd with
  | nil => simp [lookupA] at h
  | cons e fd ih =>
    obtain ⟨w, q⟩ := e
    by_cases hw : w = x
    · subst hw
      have hl : lookupA ((w, q) :: fd) w = some q := by simp [lookupA]
      rw [hl] at h
      injection h with h
      subst h
      exact List.mem_cons_self _ _
    · simp only [lookupA, if_neg hw] at h
      exact List.mem_cons_of_mem _ (ih h)

theorem lookupA_append_of_isSome (fd ext : Found) (x : String)
    (h : (lookupA fd x).isSome) : lookupA (fd ++ ext) x = lookupA fd x := by
  induction fd with
  | nil => simp [lookupA] at h
  | cons e fd ih =>
    obtain ⟨w, q⟩ := e
    by_cases hw : w = x
    · subst hw
      simp [lookupA]
    · simp only [lookupA, if_neg hw] at h ⊢
      exact ih h

theorem keysA_append (fd ext : Found) : keysA (fd ++ ext) = keysA fd ++ keysA ext := by
  simp [keysA]

theorem addArc_ext (g : Graph) (fd : Found) (st : Step) :
    ∃ ext, addArc g fd st = fd ++ ext := by
  unfold addArc
  cases lookupA fd (stepSrc g st) with
  | none => exact ⟨[], by simp⟩
  | some p =>
    by_cases h : (lookupA fd (stepDst g st)).isSome
    · exact ⟨[], by simp [h]⟩
    · exact ⟨[(stepDst g st, p ++ [st])], by simp [h]⟩

theorem foldl_addArc_ext (g : Graph) :
    ∀ (l : List Step) (fd : Found), ∃ ext, l.foldl (addArc g) fd = fd ++ ext := by
  intro l
  induction l with
  | nil => exact fun fd => ⟨[], by simp⟩
  | cons st l ih =>
    intro fd
    obtain ⟨e1, he1⟩ := addArc_ext g fd st
    obtain ⟨e2, he2⟩ := ih (addArc g fd st)
    exact ⟨e1 ++ e2, by rw [List.foldl_cons, he2, he1, List.append_assoc]⟩

theorem mem_keysA_foldl (g : Graph) (l : List Step) (fd : Found) (x : String)
    (h : x ∈ keysA fd) : x ∈ keysA (l.foldl (addArc g) fd) := by
  obtain ⟨ext, hext⟩ := foldl_addArc_ext g l fd
  rw [hext, keysA_append]
  exact List.mem_append_left _ h

theorem mem_nodesList_of_lt (g : Graph) (i : Nat) (h : i < List.length g) :
    (edgeAt g i).u ∈ nodesList g ∧ (edgeAt g i).v ∈ nodesList g := by
  have hm : edgeAt g i ∈ g := by
    unfold edgeAt
    rw [List.getD_eq_getElem?_getD, List.getElem?_eq_getElem h]
    exact List.getElem_mem h
  constructor <;>
  · unfold nodesList
    rw [List.mem_dedup, List.mem_flatMap]
    exact ⟨edgeAt g i, hm, by simp⟩

theorem arcs_mem_iff (g : Graph) (f : Flow) (st : Step) :
    st ∈ arcs g f ↔ st.i < List.length g ∧ 1 ≤ resCap g f st := by
  unfold arcs
  rw [List.mem_flatMap]
  constructor
  · rintro ⟨i, hi, hm⟩
    rw [List.mem_range] at hi
    rcases List.mem_append.1 hm with hm | hm <;> [skip; skip] <;>
      (split_ifs at hm with h <;> simp at hm) <;> subst hm <;> exact ⟨hi, h⟩
  · rintro ⟨hlen, hres⟩
    refine ⟨st.i, List.mem_range.2 hlen, ?_⟩
    obtain ⟨i, fwd⟩ := st
    cases fwd with
    | true =>
      apply List.mem_append_left
      rw [if_pos (by exact hres)]
      simp
    | false =>
      apply List.mem_append_right
      rw [if_pos (by exact hres)]
      simp

/-! ### Search invariant: every stored path is a node-simple residual path -/

theorem pathNodes_append (g : Graph) (a : String) (p : List Step) (st : Step) :
    pathNodes g a (p ++ [st]) = pathNodes g a p ++ [stepDst g st] := by
  simp [pathNodes]

theorem pathOk_append (g : Graph) (f : Flow) (st : Step)
    (hi : st.i < List.length g) (hres : 1 ≤ resCap g f st) :
    ∀ (p : List Step) (a x : String), pathOk g f a x p = true → stepSrc g st = x →
      pathOk g f a (stepDst g st) (p ++ [st]) = true := by
  intro p
  induction p with
  | nil =>
    intro a x hok hsrc
    have hax : a = x := by simpa [pathOk] using hok
    subst hax
    simp [pathOk, hsrc, hi, hres]
  | cons st2 p ih =>
    intro a x hok hsrc
    simp only [pathOk, Bool.and_eq_true, decide_eq_true_eq, beq_iff_eq] at hok
    obtain ⟨⟨⟨h1, h2⟩, h3⟩, h4⟩ := hok
    have := ih (stepDst g st2) x h4 hsrc
    simp only [List.cons_append, pathOk, Bool.and_eq_true, decide_eq_true_eq, beq_iff_eq]
    exact ⟨⟨⟨h1, h2⟩, h3⟩, this⟩

/-- Invariant of the search state: distinct keys, keys are the source or
nodes of the graph, and every entry holds a node-simple residual path from
the source to its key, all of whose nodes are reached keys. -/
def Inv (g : Graph) (f : Flow) (s : String) (fd : Found) : Prop :=
  (keysA fd).Nodup ∧
  (∀ x ∈ keysA fd, x = s ∨ x ∈ nodesList g) ∧
  ∀ e ∈ fd, pathOk g f s e.1 e.2 = true ∧ (pathNodes g s e.2).Nodup ∧
    ∀ x ∈ pathNodes g s e.2, x ∈ keysA fd

theorem inv_init (g : Graph) (f : Flow) (s : String) : Inv g f s [(s, [])] := by
  refine ⟨by simp [keysA], by simp [keysA], ?_⟩
  intro e he
  rw [List.mem_singleton] at he
  subst he
  refine ⟨by simp [pathOk], by simp [pathNodes], by simp [pathNodes, keysA]⟩

theorem addArc_inv (g : Graph) (f : Flow) (s : String) (fd : Found) (st : Step)
    (hst : st ∈ arcs g f) (hinv : Inv g f s fd) : Inv g f s (addArc g fd st) := by
  obtain ⟨hnd, hkey, hent⟩ := hinv
  obtain ⟨hi, hres⟩ := (arcs_mem_iff g f st).1 hst
  unfold addArc
  cases hl : lookupA fd (stepSrc g st) with
  | none => exact ⟨hnd, hkey, hent⟩
  | some p =>
    show Inv g f s
      (if (lookupA fd (stepDst g st)).isSome = true then fd
       else fd ++ [(stepDst g st, p ++ [st])])
    by_cases hvis : (lookupA fd (stepDst g st)).isSome = true
    · rw [if_pos hvis]
      exact ⟨hnd, hkey, hent⟩
    · rw [if_neg hvis]
      have hdnew : stepDst g st ∉ keysA fd := by
        rw [← lookupA_isSome_iff]
        exact hvis
      have hsm : (stepSrc g st, p) ∈ fd := lookupA_some_mem fd _ p hl
      obtain ⟨hokp, hndp, hsubp⟩ := hent _ hsm
      have hkeys : keysA (fd ++ [(stepDst g st, p ++ [st])]) = keysA fd ++ [stepDst g st] := by
        simp [keysA]
      refine ⟨?_, ?_, ?_⟩
      · rw [hkeys]
        simp only [List.nodup_append, List.nodup_cons, List.not_mem_nil, not_false_iff,
          List.nodup_nil, and_true, true_and]
        simp only [List.disjoint_singleton]
        exact ⟨hnd, hdnew⟩
      · rw [hkeys]
        intro x hx
        rcases List.mem_append.1 hx with hx | hx
        · exact hkey x hx
        · rw [List.mem_singleton] at hx
          subst hx
          right
          obtain ⟨j, fwd⟩ := st
          cases fwd with
          | true => exact (mem_nodesList_of_lt g j hi).2
          | false => exact (mem_nodesList_of_lt g j hi).1
      · intro e he
        rcases List.mem_append.1 he with he | he
        · obtain ⟨h1, h2, h3⟩ := hent e he
          refine ⟨h1, h2, fun x hx => ?_⟩
          rw [hkeys]
          exact List.mem_append_left _ (h3 x hx)
        · rw [List.mem_singleton] at he
          subst he
          refine ⟨?_, ?_, ?_⟩
          · exact pathOk_append g f st hi hres p s (stepSrc g st) hokp rfl
          · rw [pathNodes_append]
            simp only [List.nodup_append, List.nodup_cons, List.not_mem_nil, not_false_iff,
              List.nodup_nil, and_true, true_and, List.disjoint_singleton]
            exact ⟨hndp, fun hc => hdnew (hsubp _ hc)⟩
          · rw [pathNodes_append, hkeys]
            intro x hx
            rcases List.mem_append.1 hx with hx | hx
            · exact List.mem_append_left _ (hsubp x hx)
            · rw [List.mem_singleton] at hx
              subst hx
              exact List.mem_append_right _ (by simp)

theorem foldl_addArc_inv (g : Graph) (f : Flow) (s : String) :
    ∀ (l : List Step) (fd : Found), (∀ st ∈ l, st ∈ arcs g f) → Inv g f s fd →
      Inv g f s (l.foldl (addArc g) fd) := by
  intro l
  induction l with
  | nil => exact fun fd _ h => h
  | cons st l ih =>
    intro fd hsub hinv
    rw [List.foldl_cons]
    exact ih (addArc g fd st)
      (fun x hx => hsub x (List.mem_cons_of_mem st hx))
      (addArc_inv g f s fd st (hsub st (List.mem_cons_self st l)) hinv)

theorem bfsIter_inv (g : Graph) (f : Flow) (s : String) :
    ∀ n, Inv g f s (bfsIter g f s n) := by
  intro n
  induction n with
  | zero => exact inv_init g f s
  | succ n ih =>
    exact foldl_addArc_inv g f s (arcs g f) _ (fun st hst => hst) ih

/-- Soundness of the search: a returned path is a node-simple residual
path from s to t. -/
theorem findAugPath_sound (g : Graph) (f : Flow) (s t : String) (p : List Step)
    (h : findAugPath g f s t = some p) :
    pathOk g f s t p = true ∧ (pathNodes g s p).Nodup := by
  have hm : (t, p) ∈ bfsIter g f s (searchBound g) := lookupA_some_mem _ t p h
  have := (bfsIter_inv g f s (searchBound g)).2.2 _ hm
  exact ⟨this.1, this.2.1⟩

/-! ### Completeness of the search: a failed search means no residual path -/

theorem addArc_keys_mono (g : Graph) (fd : Found) (st : Step) (x : String)
    (h : x ∈ keysA fd) : x ∈ keysA (addArc g fd st) := by
  obtain ⟨ext, hext⟩ := addArc_ext g fd st
  rw [hext, keysA_append]
  exact List.mem_append_left _ h

theorem foldl_addArc_dst (g : Graph) :
    ∀ (l : List Step) (fd : Found) (st : Step), st ∈ l → stepSrc g st ∈ keysA fd →
      stepDst g st ∈ keysA (l.foldl (addArc g) fd) := by
  intro l
  induction l with
  | nil => intro fd st h; simp at h
  | cons st0 l ih =>
    intro fd st hmem hsrc
    rw [List.foldl_cons]
    rcases List.mem_cons.1 hmem with rfl | hmem2
    · apply mem_keysA_foldl
      have hsome : (lookupA fd (stepSrc g st)).isSome = true :=
        (lookupA_isSome_iff fd _).2 hsrc
      unfold addArc
      cases hl : lookupA fd (stepSrc g st) with
      | none => rw [hl] at hsome; simp at hsome
      | some p =>
        show stepDst g st ∈ keysA
          (if (lookupA fd (stepDst g st)).isSome = true then fd
           else fd ++ [(stepDst g st, p ++ [st])])
        by_cases hvis : (lookupA fd (stepDst g st)).isSome = true
        · rw [if_pos hvis]
          exact (lookupA_isSome_iff fd _).1 hvis
        · rw [if_neg hvis, keysA_append]
          exact List.mem_append_right _ (by simp [keysA])
    · exact ih (addArc g fd st0) st hmem2 (addArc_keys_mono g fd st0 _ hsrc)

theorem bfsIter_stable_from (g : Graph) (f : Flow) (s : String) (n : Nat)
    (h : bfsRound g f (bfsIter g f s n) = bfsIter g f s n) :
    ∀ m, n ≤ m → bfsIter g f s m = bfsIter g f s n := by
  intro m
  induction m with
  | zero => intro hm; rw [Nat.le_zero.1 hm]
  | succ m ih =>
    intro hm
    rcases Nat.lt_or_ge n (m + 1) with hlt | hge
    · have hnm : n ≤ m := by omega
      show bfsRound g f (bfsIter g f s m) = bfsIter g f s n
      rw [ih hnm, h]
    · have heq : n = m + 1 := by omega
      rw [heq]

theorem bfsIter_keys_le (g : Graph) (f : Flow) (s : String) (n : Nat) :
    (bfsIter g f s n).length ≤ (nodesList g).length + 1 := by
  obtain ⟨hnd, hkey, _⟩ := bfsIter_inv g f s n
  have hlen : (bfsIter g f s n).length = (keysA (bfsIter g f s n)).length := by
    simp [keysA]
  rw [hlen]
  have hsub : keysA (bfsIter g f s n) ⊆ s :: nodesList g := by
    intro x hx
    rcases hkey x hx with h | h
    · rw [h]; exact List.mem_cons_self _ _
    · exact List.mem_cons_of_mem _ h
  calc (keysA (bfsIter g f s n)).length
      = (keysA (bfsIter g f s n)).toFinset.card := (List.toFinset_card_of_nodup hnd).symm
    _ ≤ (s :: nodesList g).toFinset.card := by
        apply Finset.card_le_card
        intro x hx
        rw [List.mem_toFinset] at hx
        rw [List.mem_toFinset]
        exact hsub hx
    _ ≤ (s :: nodesList g).length := List.toFinset_card_le _
    _ = (nodesList g).length + 1 := by simp

theorem bfsIter_growth (g : Graph) (f : Flow) (s : String) :
    ∀ n, (∀ k < n, bfsRound g f (bfsIter g f s k) ≠ bfsIter g f s k) →
      n + 1 ≤ (bfsIter g f s n).length := by
  intro n
  induction n with
  | zero => intro _; simp [bfsIter]
  | succ n ih =>
    intro h
    have h1 : n + 1 ≤ (bfsIter g f s n).length :=
      ih fun k hk => h k (by omega)
    have h2 : bfsRound g f (bfsIter g f s n) ≠ bfsIter g f s n := h n (by omega)
    obtain ⟨ext, hext⟩ := foldl_addArc_ext g (arcs g f) (bfsIter g f s n)
    have hr : bfsIter g f s (n + 1) = bfsIter g f s n ++ ext := hext
    cases ext with
    | nil =>
      exfalso
      apply h2
      show (arcs g f).foldl (addArc g) (bfsIter g f s n) = bfsIter g f s n
      rw [hext]
      simp
    | cons e ext2 =>
      rw [hr]
      simp only [List.length_append, List.length_cons]
      omega

theorem bfsFinal_stable (g : Graph) (f : Flow) (s : String) :
    bfsRound g f (bfsIter g f s (searchBound g)) = bfsIter g f s (searchBound g) := by
  have hex : ∃ n < searchBound g, bfsRound g f (bfsIter g f s n) = bfsIter g f s n := by
    by_contra hc
    push_neg at hc
    have hgrow := bfsIter_growth g f s ((nodesList g).length + 1)
      (fun k hk => hc k (by unfold searchBound; omega))
    have hle := bfsIter_keys_le g f s ((nodesList g).length + 1)
    omega
  obtain ⟨n, hn, hst⟩ := hex
  have heq := bfsIter_stable_from g f s n hst (searchBound g) (by omega)
  rw [heq, hst]

theorem s_mem_keys_bfsIter (g : Graph) (f : Flow) (s : String) :
    ∀ n, s ∈ keysA (bfsIter g f s n) := by
  intro n
  induction n with
  | zero => simp [bfsIter, keysA]
  | succ n ih => exact mem_keysA_foldl g (arcs g f) _ s ih

theorem reach_closed (g : Graph) (f : Flow) (s t : String) :
    ∀ (p : List Step) (a : String), a ∈ keysA (bfsIter g f s (searchBound g)) →
      pathOk g f a t p = true → t ∈ keysA (bfsIter g f s (searchBound g)) := by
  intro p
  induction p with
  | nil =>
    intro a ha hok
    have : a = t := by simpa [pathOk] using hok
    exact this ▸ ha
  | cons st p ih =>
    intro a ha hok
    simp only [pathOk, Bool.and_eq_true, decide_eq_true_eq, beq_iff_eq] at hok
    obtain ⟨⟨⟨h1, h2⟩, h3⟩, h4⟩ := hok
    have hst : st ∈ arcs g f := (arcs_mem_iff g f st).2 ⟨h1, h3⟩
    have hdst : stepDst g st ∈ keysA (bfsIter g f s (searchBound g)) := by
      have := foldl_addArc_dst g (arcs g f) (bfsIter g f s (searchBound g)) st hst
        (by rw [h2]; exact ha)
      rwa [show (arcs g f).foldl (addArc g) (bfsIter g f s (searchBound g)) =
        bfsIter g f s (searchBound g) from bfsFinal_stable g f s] at this
    exact ih (stepDst g st) hdst h4

/-- Completeness of the search: when it fails, no residual path from s to
t exists at all. -/
theorem no_path_of_findAug_none (g : Graph) (f : Flow) (s t : String)
    (hnone : findAugPath g f s t = none) :
    ∀ p : List Step, pathOk g f s t p ≠ true := by
  intro p hok
  have ht : t ∈ keysA (bfsIter g f s (searchBound g)) :=
    reach_closed g f s t p s (s_mem_keys_bfsIter g f s _) hok
  have := (lookupA_eq_none_iff (bfsIter g f s (searchBound g)) t).1 hnone
  exact this ht

/-! ### Augmentation preserves the good-flow invariant -/

theorem foldr_min_le (l : List Nat) (init q : Nat) (h : q ∈ l) :
    l.foldr min init ≤ q := by
  induction l with
  | nil => simp at h
  | cons x l ih =>
    rcases List.mem_cons.1 h with rfl | h2
    · exact min_le_left _ _
    · exact le_trans (min_le_right _ _) (ih h2)

theorem le_foldr_min (l : List Nat) (init c : Nat) (h : ∀ q ∈ l, c ≤ q)
    (hc : c ≤ init) : c ≤ l.foldr min init := by
  induction l with
  | nil => simpa
  | cons x l ih =>
    exact le_min (h x (List.mem_cons_self x l))
      (ih fun q hq => h q (List.mem_cons_of_mem x hq))

theorem bottleneck_le (g : Graph) (f : Flow) (p : List Step) (st : Step) (h : st ∈ p) :
    bottleneck g f p ≤ resCap g f st :=
  foldr_min_le _ _ _ (List.mem_map_of_mem (resCap g f) h)

theorem bottleneck_pos (g : Graph) (f : Flow) (p : List Step)
    (h : ∀ st ∈ p, 1 ≤ resCap g f st) : 1 ≤ bottleneck g f p := by
  apply le_foldr_min
  · intro q hq
    obtain ⟨st, hst, rfl⟩ := List.mem_map.1 hq
    exact h st hst
  · omega

/-- One augmentation: pushing d units (d at most the bottleneck) along a
node-simple residual path from s to t keeps the invariant and moves net
inflow d from s to t. -/
theorem augment_good (g : Graph) (s t : String) (f : Flow) (p : List Step) (d : Nat)
    (hgood : GoodFlow g f s t) (hok : pathOk g f s t p = true)
    (hnd : (pathNodes g s p).Nodup) (hd : d ≤ bottleneck g f p) :
    GoodFlow g (pushPath f p d) s t ∧
    ∀ w, excess g (pushPath f p d) w =
      excess g f w + (if t = w then (d : Int) else 0) - (if s = w then (d : Int) else 0) := by
  obtain ⟨hlen, hcap, hcons⟩ := hgood
  obtain ⟨hch, hall⟩ := (pathOk_iff g f t p s).1 hok
  have hnd2 : (p.map Step.i).Nodup := steps_index_nodup g p s t hch hnd
  have hall2 : ∀ st ∈ p, st.i < List.length g ∧ d ≤ resCap g f st := fun st hst =>
    ⟨(hall st hst).1, le_trans hd (bottleneck_le g f p st hst)⟩
  obtain ⟨hL, hC, hE⟩ := pushPath_props g d p f s t hlen hcap hnd2 hall2 hch
  refine ⟨⟨hL, hC, fun w hws hwt => ?_⟩, hE⟩
  rw [hE w, hcons w hws hwt, if_neg (fun hc => hwt hc.symm), if_neg (fun hc => hws hc.symm)]
  ring

/-! ### The two solver loops preserve the invariant -/

theorem lookupA_bfsIter_self (g : Graph) (f : Flow) (s : String) :
    ∀ n, lookupA (bfsIter g f s n) s = some [] := by
  intro n
  induction n with
  | zero => simp [bfsIter, lookupA]
  | succ n ih =>
    obtain ⟨ext, hext⟩ := foldl_addArc_ext g (arcs g f) (bfsIter g f s n)
    have hstep : bfsIter g f s (n + 1) = bfsIter g f s n ++ ext := hext
    rw [hstep, lookupA_append_of_isSome _ _ _ (by rw [ih]; rfl), ih]

theorem mfLoop_self (g : Graph) (s : String) : ∀ (fuel : Nat) (f : Flow),
    mfLoop g s s fuel f = f := by
  intro fuel
  induction fuel with
  | zero => intro f; rfl
  | succ n ih =>
    intro f
    show (match findAugPath g f s s with
      | none => f
      | some p => mfLoop g s s n (pushPath f p (bottleneck g f p))) = f
    rw [show findAugPath g f s s = some [] from lookupA_bfsIter_self g f s _]
    show mfLoop g s s n (pushPath f [] _) = f
    exact ih f

/-! ### Flow values are bounded by the total capacity -/

theorem pairs_map_fst (g : Graph) (f : Flow) (h : List.length f = List.length g) :
    (pairs g f).map Prod.fst = g :=
  List.map_fst_zip g f (by omega)

theorem capSum_eq (g : Graph) (f : Flow) (h : List.length f = List.length g) :
    ((pairs g f).map fun pr => (pr.1.cap : Int)).sum = (totalCap g : Int) := by
  have h1 : (pairs g f).map (fun pr => (pr.1.cap : Int)) =
      ((pairs g f).map Prod.fst).map (fun e => (e.cap : Int)) := by
    rw [List.map_map]
    rfl
  rw [h1, pairs_map_fst g f h]
  unfold totalCap
  rw [Nat.cast_list_sum, List.map_map]
  rfl

theorem flowIn_nonneg (g : Graph) (f : Flow) (w : String) : 0 ≤ flowIn g f w := by
  apply List.sum_nonneg
  intro x hx
  obtain ⟨pr, _, rfl⟩ := List.mem_map.1 hx
  split_ifs <;> positivity

theorem flowOut_nonneg (g : Graph) (f : Flow) (w : String) : 0 ≤ flowOut g f w := by
  apply List.sum_nonneg
  intro x hx
  obtain ⟨pr, _, rfl⟩ := List.mem_map.1 hx
  split_ifs <;> positivity

theorem flowValue_le_totalCap (g : Graph) (f : Flow) (s t : String)
    (hgood : GoodFlow g f s t) : flowValue g f s ≤ (totalCap g : Int) := by
  have hfe := goodFlow_feasible g f s t hgood
  have hout : flowOut g f s ≤ (totalCap g : Int) := by
    rw [← capSum_eq g f hgood.1]
    apply List.sum_le_sum
    intro pr hpr
    have := hfe.2 pr hpr
    split_ifs <;> [exact_mod_cast this; positivity]
  have hin : 0 ≤ flowIn g f s := flowIn_nonneg g f s
  unfold flowValue
  omega

/-! ### The max-flow loop: invariant, monotone value, final state has no
augmenting path -/

theorem mfLoop_main (g : Graph) (s t : String) (hst : s ≠ t) :
    ∀ (fuel : Nat) (f : Flow), GoodFlow g f s t →
      (totalCap g : Int) < flowValue g f s + fuel →
      GoodFlow g (mfLoop g s t fuel f) s t ∧
      flowValue g f s ≤ flowValue g (mfLoop g s t fuel f) s ∧
      findAugPath g (mfLoop g s t fuel f) s t = none := by
  intro fuel
  induction fuel with
  | zero =>
    intro f hgood hfuel
    exact absurd (flowValue_le_totalCap g f s t hgood) (by push_cast at hfuel ⊢; omega)
  | succ n ih =>
    intro f hgood hfuel
    cases h : findAugPath g f s t with
    | none =>
      have hred : mfLoop g s t (n + 1) f = f := by
        show (match findAugPath g f s t with
          | none => f
          | some p => mfLoop g s t n (pushPath f p (bottleneck g f p))) = f
        rw [h]
      rw [hred]
      exact ⟨hgood, le_refl _, h⟩
    | some p =>
      have hred : mfLoop g s t (n + 1) f = mfLoop g s t n (pushPath f p (bottleneck g f p)) := by
        show (match findAugPath g f s t with
          | none => f
          | some p => mfLoop g s t n (pushPath f p (bottleneck g f p))) = _
        rw [h]
      obtain ⟨hok, hnd⟩ := findAugPath_sound g f s t p h
      have hall := ((pathOk_iff g f t p s).1 hok).2
      have hne : p ≠ [] := by
        intro hc
        subst hc
        exact hst (by simpa [pathOk, beq_iff_eq] using hok)
      have hd1 : 1 ≤ bottleneck g f p :=
        bottleneck_pos g f p fun st hst2 => (hall st hst2).2
      obtain ⟨hgood2, hexc⟩ :=
        augment_good g s t f p (bottleneck g f p) hgood hok hnd (le_refl _)
      have hval : flowValue g (pushPath f p (bottleneck g f p)) s =
          flowValue g f s + (bottleneck g f p : Int) := by
        rw [flowValue_eq_neg_excess, hexc s, if_neg (fun hc => hst hc.symm), if_pos rfl,
          flowValue_eq_neg_excess]
        ring
      have hfuel2 : (totalCap g : Int) <
          flowValue g (pushPath f p (bottleneck g f p)) s + n := by
        rw [hval]
        push_cast at hfuel ⊢
        omega
      obtain ⟨hg3, hv3, hn3⟩ := ih (pushPath f p (bottleneck g f p)) hgood2 hfuel2
      rw [hred]
      refine ⟨hg3, ?_, hn3⟩
      rw [hval] at hv3
      omega

/-- The assignment returned by the max-flow solver satisfies the
invariant, has non-negative value, and admits no further augmenting
path. -/
theorem maxFlowAssign_spec (g : Graph) (s t : String) (hst : s ≠ t) :
    GoodFlow g (maxFlowAssign g s t) s t ∧
    0 ≤ flowValue g (maxFlowAssign g s t) s ∧
    findAugPath g (maxFlowAssign g s t) s t = none := by
  have h := mfLoop_main g s t hst (totalCap g + 1) (zeroFlow g) (goodFlow_zeroFlow g s t)
    (by rw [flowValue_zeroFlow]; push_cast; omega)
  refine ⟨h.1, ?_, h.2.2⟩
  have := h.2.1
  rw [flowValue_zeroFlow] at this
  exact this

/-- The invariant holds for the returned max-flow assignment for any
source and sink, including the degenerate equal pair. -/
theorem maxFlowAssign_good (g : Graph) (s t : String) :
    GoodFlow g (maxFlowAssign g s t) s t := by
  by_cases hst : s = t
  · subst hst
    unfold maxFlowAssign
    rw [mfLoop_self g s _ _]
    exact goodFlow_zeroFlow g s s
  · exact (maxFlowAssign_spec g s t hst).1

/-! ### Generic sum lemmas -/

theorem sum_map_add {α : Type} (l : List α) (f h : α → Int) :
    (l.map fun a => f a + h a).sum = (l.map f).sum + (l.map h).sum := by
  induction l with
  | nil => simp
  | cons x l ih => simp [ih]; ring

theorem sum_map_sub {α : Type} (l : List α) (f h : α → Int) :
    (l.map fun a => f a - h a).sum = (l.map f).sum - (l.map h).sum := by
  induction l with
  | nil => simp
  | cons x l ih => simp [ih]; ring

theorem list_sum_swap {α β : Type} (l1 : List α) (l2 : List β) (F : α → β → Int) :
    (l1.map fun a => (l2.map fun b => F a b).sum).sum =
      (l2.map fun b => (l1.map fun a => F a b).sum).sum := by
  induction l1 with
  | nil => simp [List.sum_eq_zero]
  | cons a l1 ih =>
    simp only [List.map_cons, List.sum_cons, ih]
    rw [← sum_map_add]

theorem sum_if_eq_mem (R : List String) (hR : R.Nodup) (a : String) (x : Int) :
    (R.map fun w => if a = w then x else 0).sum = if a ∈ R then x else 0 := by
  induction R with
  | nil => simp
  | cons w R ih =>
    obtain ⟨hw, hR2⟩ := List.nodup_cons.1 hR
    by_cases haw : a = w
    · subst haw
      have hz : (R.map fun w2 => if a = w2 then x else 0).sum = 0 := by
        apply List.sum_eq_zero
        intro y hy
        obtain ⟨w2, hw2, rfl⟩ := List.mem_map.1 hy
        rw [if_neg (fun hc => hw (by rw [hc]; exact hw2))]
      simp [hz]
    · simp only [List.map_cons, List.sum_cons, if_neg (fun hc => haw (hc : a = w)), ih hR2,
        List.mem_cons]
      simp [haw]

theorem sum_eq_single_mem (R : List String) (s : String) (F : String → Int)
    (hR : R.Nodup) (hs : s ∈ R) (h : ∀ w ∈ R, w ≠ s → F w = 0) :
    (R.map F).sum = F s := by
  induction R with
  | nil => simp at hs
  | cons w R ih =>
    obtain ⟨hw, hR2⟩ := List.nodup_cons.1 hR
    rcases List.mem_cons.1 hs with rfl | hs2
    · have hz : (R.map F).sum = 0 := by
        apply List.sum_eq_zero
        intro y hy
        obtain ⟨w2, hw2, rfl⟩ := List.mem_map.1 hy
        exact h w2 (List.mem_cons_of_mem _ hw2) (fun hc => hw (hc ▸ hw2))
      simp [hz]
    · have hws : w ≠ s := fun hc => hw (hc ▸ hs2)
      rw [List.map_cons, List.sum_cons, h w (List.mem_cons_self _ _) hws,
        ih hR2 hs2 (fun w2 hw2 => h w2 (List.mem_cons_of_mem _ hw2))]
      ring

/-! ### Flow sums in edge-index form -/

theorem sum_over_pairs_eq_range (g : Graph) :
    ∀ (f : Flow), List.length f = List.length g → ∀ (F : Edge → Nat → Int),
      ((pairs g f).map fun pr => F pr.1 pr.2).sum =
        ((List.range (List.length g)).map fun i => F (edgeAt g i) (fAt f i)).sum := by
  induction g with
  | nil => intro f h F; simp [pairs]
  | cons e g ih =>
    intro f h F
    cases f with
    | nil => simp at h
    | cons x f =>
      have h2 : List.length f = List.length g := by simpa using h
      simp only [pairs, List.zip_cons_cons, List.map_cons, List.sum_cons,
        List.length_cons, List.range_succ_eq_map, List.map_map]
      have hx : F (edgeAt (e :: g) 0) (fAt (x :: f) 0) = F e x := by
        simp [edgeAt, fAt]
      rw [hx]
      congr 1
      have := ih f h2 F
      unfold pairs at this
      rw [this]
      congr 1

theorem excess_range (g : Graph) (f : Flow) (h : List.length f = List.length g)
    (w : String) :
    excess g f w =
      ((List.range (List.length g)).map fun i =>
        (if (edgeAt g i).v = w then (fAt f i : Int) else 0) -
        (if (edgeAt g i).u = w then (fAt f i : Int) else 0)).sum := by
  unfold excess flowIn flowOut
  rw [sum_over_pairs_eq_range g f h (fun e x => if e.v = w then (x : Int) else 0),
    sum_over_pairs_eq_range g f h (fun e x => if e.u = w then (x : Int) else 0),
    ← sum_map_sub]

/-! ### Cut capacity and the two cut inequalities -/

/-- Total capacity of the edges leaving the node set R. -/
def cutCap (g : Graph) (R : List String) : Int :=
  ((List.range (List.length g)).map fun i =>
    if (edgeAt g i).u ∈ R ∧ (edgeAt g i).v ∉ R then ((edgeAt g i).cap : Int) else 0).sum

theorem sum_excess_over (g : Graph) (f : Flow) (h : List.length f = List.length g)
    (R : List String) (hR : R.Nodup) :
    (R.map fun w => excess g f w).sum =
      ((List.range (List.length g)).map fun i =>
        (if (edgeAt g i).v ∈ R then (fAt f i : Int) else 0) -
        (if (edgeAt g i).u ∈ R then (fAt f i : Int) else 0)).sum := by
  have h1 : (R.map fun w => excess g f w).sum =
      (R.map fun w => ((List.range (List.length g)).map fun i =>
        (if (edgeAt g i).v = w then (fAt f i : Int) else 0) -
        (if (edgeAt g i).u = w then (fAt f i : Int) else 0)).sum).sum := by
    congr 1
    exact List.map_congr_left fun w _ => excess_range g f h w
  rw [h1, list_sum_swap]
  congr 1
  apply List.map_congr_left
  intro i _
  rw [sum_map_sub]
  rw [sum_if_eq_mem R hR ((edgeAt g i).v) _, sum_if_eq_mem R hR ((edgeAt g i).u) _]

theorem sum_excess_conserving (g : Graph) (f : Flow) (s t : String)
    (hgood : GoodFlow g f s t) (R : List String) (hR : R.Nodup)
    (hs : s ∈ R) (ht : t ∉ R) :
    (R.map fun w => excess g f w).sum = excess g f s := by
  apply sum_eq_single_mem R s _ hR hs
  intro w hw hws
  exact hgood.2.2 w hws (fun hc => ht (hc ▸ hw))

/-- Any good flow is bounded by the capacity of any cut separating s
from t. -/
theorem value_le_cutCap (g : Graph) (f : Flow) (s t : String)
    (hgood : GoodFlow g f s t) (R : List String) (hR : R.Nodup)
    (hs : s ∈ R) (ht : t ∉ R) :
    flowValue g f s ≤ cutCap g R := by
  have h1 : excess g f s =
      ((List.range (List.length g)).map fun i =>
        (if (edgeAt g i).v ∈ R then (fAt f i : Int) else 0) -
        (if (edgeAt g i).u ∈ R then (fAt f i : Int) else 0)).sum := by
    rw [← sum_excess_conserving g f s t hgood R hR hs ht,
      sum_excess_over g f hgood.1 R hR]
  have h2 : flowValue g f s =
      ((List.range (List.length g)).map fun i =>
        (if (edgeAt g i).u ∈ R then (fAt f i : Int) else 0) -
        (if (edgeAt g i).v ∈ R then (fAt f i : Int) else 0)).sum := by
    rw [flowValue_eq_neg_excess, h1, sum_map_sub, sum_map_sub]
    ring
  rw [h2]
  unfold cutCap
  apply List.sum_le_sum
  intro i hi
  rw [List.mem_range] at hi
  have hcap := hgood.2.1 i hi
  have hcap2 : (fAt f i : Int) ≤ ((edgeAt g i).cap : Int) := by exact_mod_cast hcap
  by_cases hu : (edgeAt g i).u ∈ R <;> by_cases hv : (edgeAt g i).v ∈ R
  · rw [if_pos hu, if_pos hv, if_neg (fun h => h.2 hv)]
    omega
  · rw [if_pos hu, if_neg hv, if_pos ⟨hu, hv⟩]
    omega
  · rw [if_neg hu, if_pos hv, if_neg (fun h => hu h.1)]
    omega
  · rw [if_neg hu, if_neg hv, if_neg (fun h => hu h.1)]
    omega

/-- Where the search got stuck, every forward edge across the reached set
is saturated and every backward one is empty: the flow value equals the
cut capacity. -/
theorem value_eq_cutCap_of_noAug (g : Graph) (f : Flow) (s t : String)
    (hgood : GoodFlow g f s t) (hnone : findAugPath g f s t = none) :
    flowValue g f s = cutCap g (keysA (bfsIter g f s (searchBound g))) := by
  set R := keysA (bfsIter g f s (searchBound g)) with hRdef
  have hR : R.Nodup := (bfsIter_inv g f s (searchBound g)).1
  have hs : s ∈ R := s_mem_keys_bfsIter g f s _
  have ht : t ∉ R := (lookupA_eq_none_iff _ t).1 hnone
  have hclosed : ∀ st ∈ arcs g f, stepSrc g st ∈ R → stepDst g st ∈ R := by
    intro st hst hsrc
    have := foldl_addArc_dst g (arcs g f) (bfsIter g f s (searchBound g)) st hst hsrc
    rwa [show (arcs g f).foldl (addArc g) (bfsIter g f s (searchBound g)) =
      bfsIter g f s (searchBound g) from bfsFinal_stable g f s] at this
  have h1 : excess g f s =
      ((List.range (List.length g)).map fun i =>
        (if (edgeAt g i).v ∈ R then (fAt f i : Int) else 0) -
        (if (edgeAt g i).u ∈ R then (fAt f i : Int) else 0)).sum := by
    rw [← sum_excess_conserving g f s t hgood R hR hs ht,
      sum_excess_over g f hgood.1 R hR]
  have h2 : flowValue g f s =
      ((List.range (List.length g)).map fun i =>
        (if (edgeAt g i).u ∈ R then (fAt f i : Int) else 0) -
        (if (edgeAt g i).v ∈ R then (fAt f i : Int) else 0)).sum := by
    rw [flowValue_eq_neg_excess, h1, sum_map_sub, sum_map_sub]
    ring
  rw [h2]
  unfold cutCap
  congr 1
  apply List.map_congr_left
  intro i hi
  rw [List.mem_range] at hi
  have hcap := hgood.2.1 i hi
  have hsat : (edgeAt g i).u ∈ R → (edgeAt g i).v ∉ R → fAt f i = (edgeAt g i).cap := by
    intro hu hv
    by_contra hne
    have hlt : fAt f i < (edgeAt g i).cap := Nat.lt_of_le_of_ne hcap hne
    have hres : 1 ≤ resCap g f ⟨i, true⟩ := by
      show 1 ≤ (edgeAt g i).cap - fAt f i
      omega
    have harc : (⟨i, true⟩ : Step) ∈ arcs g f := (arcs_mem_iff g f _).2 ⟨hi, hres⟩
    have := hclosed _ harc (by simpa [stepSrc] using hu)
    simp only [stepDst, if_true] at this
    exact hv this
  have hempty : (edgeAt g i).v ∈ R → (edgeAt g i).u ∉ R → fAt f i = 0 := by
    intro hv hu
    by_contra hne
    have hpos : 1 ≤ fAt f i := Nat.one_le_iff_ne_zero.2 hne
    have hres : 1 ≤ resCap g f ⟨i, false⟩ := by
      show 1 ≤ fAt f i
      exact hpos
    have harc : (⟨i, false⟩ : Step) ∈ arcs g f := (arcs_mem_iff g f _).2 ⟨hi, hres⟩
    have := hclosed _ harc (by simpa [stepSrc] using hv)
    simp only [stepDst, if_false] at this
    exact hu this
  by_cases hu : (edgeAt g i).u ∈ R <;> by_cases hv : (edgeAt g i).v ∈ R
  · rw [if_pos hu, if_pos hv, if_neg (fun h => h.2 hv)]
    ring
  · rw [if_pos hu, if_neg hv, if_pos ⟨hu, hv⟩, hsat hu hv]
    ring
  · rw [if_neg hu, if_pos hv, if_neg (fun h => hu h.1), hempty hv hu]
    ring
  · rw [if_neg hu, if_neg hv, if_neg (fun h => hu h.1)]
    ring

/-- Maximality: a flow admitting no augmenting path has the largest value
among all good flows on the same graph. -/
theorem noAug_maximal (g : Graph) (f : Flow) (s t : String)
    (hgood : GoodFlow g f s t) (hnone : findAugPath g f s t = none)
    (f2 : Flow) (hgood2 : GoodFlow g f2 s t) :
    flowValue g f2 s ≤ flowValue g f s := by
  rw [value_eq_cutCap_of_noAug g f s t hgood hnone]
  exact value_le_cutCap g f2 s t hgood2 _
    (bfsIter_inv g f s (searchBound g)).1
    (s_mem_keys_bfsIter g f s _)
    ((lookupA_eq_none_iff _ t).1 hnone)

/-! ### The min-cost loop: invariant preservation and guaranteed success -/

theorem mcLoop_zero (g : Graph) (s t : String) (fuel : Nat) (f : Flow) :
    mcLoop g s t fuel 0 f = .ok f := by
  cases fuel <;> rfl

theorem mcLoop_none_step (g : Graph) (s t : String) (n r : Nat) (f : Flow)
    (hfind : findAugPath g f s t = none) :
    mcLoop g s t (n + 1) (r + 1) f = .error .infeasibleFlowError := by
  show (match findAugPath g f s t with
    | none => (Except.error Err.infeasibleFlowError : Except Err Flow)
    | some p =>
      mcLoop g s t n (r + 1 - min (r + 1) (bottleneck g f p))
        (pushPath f p (min (r + 1) (bottleneck g f p)))) = _
  rw [hfind]

theorem mcLoop_some_step (g : Graph) (s t : String) (n r : Nat) (f : Flow) (p : List Step)
    (hfind : findAugPath g f s t = some p) :
    mcLoop g s t (n + 1) (r + 1) f =
      mcLoop g s t n (r + 1 - min (r + 1) (bottleneck g f p))
        (pushPath f p (min (r + 1) (bottleneck g f p))) := by
  show (match findAugPath g f s t with
    | none => (Except.error Err.infeasibleFlowError : Except Err Flow)
    | some p =>
      mcLoop g s t n (r + 1 - min (r + 1) (bottleneck g f p))
        (pushPath f p (min (r + 1) (bottleneck g f p)))) = _
  rw [hfind]

/-- Whatever path selection does, every assignment the min-cost loop
returns satisfies the good-flow invariant. -/
theorem mcLoop_good (g : Graph) (s t : String) :
    ∀ (fuel r : Nat) (f fres : Flow), GoodFlow g f s t →
      mcLoop g s t fuel r f = .ok fres → GoodFlow g fres s t := by
  intro fuel
  induction fuel with
  | zero =>
    intro r f fres hg h
    cases r with
    | zero =>
      rw [mcLoop_zero] at h
      injection h with h
      exact h ▸ hg
    | succ r => exact absurd h (by simp [mcLoop])
  | succ n ih =>
    intro r f fres hg h
    cases r with
    | zero =>
      rw [mcLoop_zero] at h
      injection h with h
      exact h ▸ hg
    | succ r =>
      cases hfind : findAugPath g f s t with
      | none =>
        rw [mcLoop_none_step g s t n r f hfind] at h
        exact absurd h (by simp)
      | some p =>
        rw [mcLoop_some_step g s t n r f p hfind] at h
        obtain ⟨hok, hnd⟩ := findAugPath_sound g f s t p hfind
        have hgood2 := (augment_good g s t f p (min (r + 1) (bottleneck g f p)) hg hok hnd
          (min_le_right _ _)).1
        exact ih _ _ fres hgood2 h

/-- Success of the min-cost loop whenever some good flow of the demanded
value exists: with remaining demand the loop always finds an augmenting
path, because a stuck flow would already be maximal. -/
theorem mcLoop_reaches (g : Graph) (s t : String) (hst : s ≠ t) (fstar : Flow)
    (hgstar : GoodFlow g fstar s t) :
    ∀ (fuel r : Nat) (f : Flow), r ≤ fuel → GoodFlow g f s t →
      flowValue g f s + r = flowValue g fstar s →
      ∃ fres, mcLoop g s t fuel r f = .ok fres := by
  intro fuel
  induction fuel with
  | zero =>
    intro r f hrf hg hval
    have hr0 : r = 0 := by omega
    subst hr0
    exact ⟨f, mcLoop_zero g s t 0 f⟩
  | succ n ih =>
    intro r f hrf hg hval
    cases r with
    | zero => exact ⟨f, mcLoop_zero g s t (n + 1) f⟩
    | succ r =>
      cases hfind : findAugPath g f s t with
      | none =>
        exfalso
        have hmax := noAug_maximal g f s t hg hfind fstar hgstar
        rw [← hval] at hmax
        push_cast at hmax
        omega
      | some p =>
        obtain ⟨hok, hnd⟩ := findAugPath_sound g f s t p hfind
        have hne : p ≠ [] := by
          intro hc
          subst hc
          exact hst (by simpa [pathOk, beq_iff_eq] using hok)
        have hall := ((pathOk_iff g f t p s).1 hok).2
        have hb1 : 1 ≤ bottleneck g f p :=
          bottleneck_pos g f p fun st hst2 => (hall st hst2).2
        set d := min (r + 1) (bottleneck g f p) with hd
        have hd1 : 1 ≤ d := le_min (by omega) hb1
        have hdr : d ≤ r + 1 := min_le_left _ _
        obtain ⟨hgood2, hexc⟩ :=
          augment_good g s t f p d hg hok hnd (min_le_right _ _)
        have hval2 : flowValue g (pushPath f p d) s = flowValue g f s + (d : Int) := by
          rw [flowValue_eq_neg_excess, hexc s, if_neg (fun hc => hst hc.symm), if_pos rfl,
            flowValue_eq_neg_excess]
          ring
        have hval3 : flowValue g (pushPath f p d) s + (r + 1 - d : Nat) =
            flowValue g fstar s := by
          rw [hval2, ← hval]
          push_cast
          omega
        obtain ⟨fres, hres⟩ := ih (r + 1 - d) (pushPath f p d) (by omega) hgood2 hval3
        exact ⟨fres, by rw [mcLoop_some_step g s t n r f p hfind, ← hd]; exact hres⟩

/-! ### Transporting a flow from a filtered graph back to the full graph -/

/-- Extends an assignment on the filtered edge list to the full edge list
by giving every filtered-out edge zero flow. -/
def transport (P : Edge → Bool) : Graph → Flow → Flow
  | [], _ => []
  | e :: g, f =>
    if P e then fAt f 0 :: transport P g f.tail else 0 :: transport P g f

theorem transport_length (P : Edge → Bool) :
    ∀ (g : Graph) (f : Flow), (transport P g f).length = g.length := by
  intro g
  induction g with
  | nil => intro f; rfl
  | cons e g ih =>
    intro f
    unfold transport
    by_cases h : P e <;> simp [h, ih]

theorem transport_pairs_le (P : Edge → Bool) :
    ∀ (g : Graph) (f : Flow), List.length f = List.length (g.filter P) →
      (∀ pr ∈ pairs (g.filter P) f, pr.2 ≤ pr.1.cap) →
      ∀ pr ∈ pairs g (transport P g f), pr.2 ≤ pr.1.cap := by
  intro g
  induction g with
  | nil => intro f _ _ pr hpr; simp [pairs, transport] at hpr
  | cons e g ih =>
    intro f hlen hcap pr hpr
    by_cases hP : P e
    · have hfil : (e :: g).filter P = e :: g.filter P := by simp [hP]
      rw [hfil] at hlen hcap
      cases f with
      | nil => simp at hlen
      | cons y f2 =>
        have htr : transport P (e :: g) (y :: f2) = y :: transport P g f2 := by
          simp [transport, hP, fAt]
        rw [htr] at hpr
        rcases List.mem_cons.1 hpr with rfl | hpr2
        · exact hcap (e, y) (by simp [pairs])
        · exact ih f2 (by simpa using hlen)
            (fun q hq => hcap q (by simp [pairs] at hq ⊢; exact Or.inr hq)) pr hpr2
    · have hfil : (e :: g).filter P = g.filter P := by simp [hP]
      rw [hfil] at hlen hcap
      have htr : transport P (e :: g) f = 0 :: transport P g f := by
        simp [transport, hP]
      rw [htr] at hpr
      rcases List.mem_cons.1 hpr with rfl | hpr2
      · simp
      · exact ih f hlen hcap pr hpr2

theorem flowOut_cons (e : Edge) (g : Graph) (y : Nat) (f : Flow) (w : String) :
    flowOut (e :: g) (y :: f) w = (if e.u = w then (y : Int) else 0) + flowOut g f w := by
  simp [flowOut, pairs]

theorem flowIn_cons (e : Edge) (g : Graph) (y : Nat) (f : Flow) (w : String) :
    flowIn (e :: g) (y :: f) w = (if e.v = w then (y : Int) else 0) + flowIn g f w := by
  simp [flowIn, pairs]

theorem transport_flowOut (P : Edge → Bool) (w : String) :
    ∀ (g : Graph) (f : Flow), List.length f = List.length (g.filter P) →
      flowOut g (transport P g f) w = flowOut (g.filter P) f w ∧
      flowIn g (transport P g f) w = flowIn (g.filter P) f w := by
  intro g
  induction g with
  | nil =>
    intro f h
    have h0 : f = [] := List.length_eq_zero.1 (by simpa using h)
    subst h0
    exact ⟨rfl, rfl⟩
  | cons e g ih =>
    intro f hlen
    by_cases hP : P e
    · have hfil : (e :: g).filter P = e :: g.filter P := by simp [hP]
      rw [hfil] at hlen ⊢
      cases f with
      | nil => simp at hlen
      | cons y f2 =>
        have htr : transport P (e :: g) (y :: f2) = y :: transport P g f2 := by
          simp [transport, hP, fAt]
        rw [htr]
        have hlen2 : List.length f2 = List.length (g.filter P) := by simpa using hlen
        obtain ⟨ho, hi⟩ := ih f2 hlen2
        constructor
        · rw [flowOut_cons, flowOut_cons, ho]
        · rw [flowIn_cons, flowIn_cons, hi]
    · have hfil : (e :: g).filter P = g.filter P := by simp [hP]
      rw [hfil] at hlen ⊢
      have htr : transport P (e :: g) f = 0 :: transport P g f := by
        simp [transport, hP]
      rw [htr]
      obtain ⟨ho, hi⟩ := ih f hlen
      constructor
      · rw [flowOut_cons, ho]
        split_ifs <;> simp
      · rw [flowIn_cons, hi]
        split_ifs <;> simp

/-- A good flow on the filtered graph transports to a good flow of the
same value on the full graph. -/
theorem transport_good (P : Edge → Bool) (g : Graph) (f : Flow) (s t : String)
    (h : GoodFlow (g.filter P) f s t) :
    GoodFlow g (transport P g f) s t ∧
    flowValue g (transport P g f) s = flowValue (g.filter P) f s := by
  obtain ⟨hlen, hcap, hcons⟩ := h
  have hfe : ∀ pr ∈ pairs (g.filter P) f, pr.2 ≤ pr.1.cap := by
    intro pr hpr
    obtain ⟨i, hi, hpr2⟩ := List.mem_iff_getElem.1 hpr
    have hig : i < List.length (g.filter P) := by
      have : (pairs (g.filter P) f).length = List.length (g.filter P) :=
        pairs_length _ f hlen
      omega
    rw [pairs_getElem (g.filter P) f i hig (by omega) hi] at hpr2
    rw [← hpr2]
    exact hcap i hig
  have hfeas : Feasible g (transport P g f) :=
    ⟨transport_length P g f, transport_pairs_le P g f hlen hfe⟩
  have hio : ∀ w, flowOut g (transport P g f) w = flowOut (g.filter P) f w ∧
      flowIn g (transport P g f) w = flowIn (g.filter P) f w :=
    fun w => transport_flowOut P w g f hlen
  have hfeas2 := (feasible_iff g (transport P g f)).1 hfeas
  refine ⟨⟨hfeas2.1, hfeas2.2, fun w hws hwt => ?_⟩, ?_⟩
  · unfold excess
    rw [(hio w).1, (hio w).2]
    exact hcons w hws hwt
  · unfold flowValue
    rw [(hio s).1, (hio s).2]

/-! ### A missing source or sink makes the search fail immediately -/

theorem foldl_fixed {α β : Type} (h : β → α → β) (l : List α) (acc : β)
    (hfix : ∀ x ∈ l, h acc x = acc) : l.foldl h acc = acc := by
  induction l with
  | nil => rfl
  | cons x l ih =>
    rw [List.foldl_cons, hfix x (List.mem_cons_self x l)]
    exact ih fun y hy => hfix y (List.mem_cons_of_mem x hy)

theorem stepSrc_mem_nodesList (g : Graph) (st : Step) (h : st.i < List.length g) :
    stepSrc g st ∈ nodesList g := by
  obtain ⟨i, fwd⟩ := st
  cases fwd with
  | true => exact (mem_nodesList_of_lt g i h).1
  | false => exact (mem_nodesList_of_lt g i h).2

theorem findAugPath_none_of_missing (g : Graph) (f : Flow) (s t : String)
    (hst : s ≠ t) (hmiss : s ∉ nodesList g ∨ t ∉ nodesList g) :
    findAugPath g f s t = none := by
  rcases hmiss with hs | ht
  · have hiter : ∀ n, bfsIter g f s n = [(s, [])] := by
      intro n
      induction n with
      | zero => rfl
      | succ n ih =>
        show bfsRound g f (bfsIter g f s n) = [(s, [])]
        rw [ih]
        apply foldl_fixed
        intro st hstm
        have hi := ((arcs_mem_iff g f st).1 hstm).1
        have hsrc : stepSrc g st ≠ s := fun hc => hs (hc ▸ stepSrc_mem_nodesList g st hi)
        unfold addArc
        rw [(lookupA_eq_none_iff [(s, [])] (stepSrc g st)).2 (by simpa [keysA] using hsrc)]
    unfold findAugPath
    rw [hiter]
    simp [lookupA, hst]
  · apply (lookupA_eq_none_iff _ t).2
    intro hmem
    rcases (bfsIter_inv g f s (searchBound g)).2.1 t hmem with h | h
    · exact hst h.symm
    · exact ht h

theorem mfLoop_none_red (g : Graph) (s t : String) (n : Nat) (f : Flow)
    (h : findAugPath g f s t = none) : mfLoop g s t (n + 1) f = f := by
  show (match findAugPath g f s t with
    | none => f
    | some p => mfLoop g s t n (pushPath f p (bottleneck g f p))) = f
  rw [h]

/-! ### The Graph Model validation layer

Modelled from the spec: the add_edge operation of the Graph Model
(spec section 4.1).  The script delegates graph storage to the networkx
library, whose code is not part of the repository; per the spec, adding
an edge fails with ValidationError when the capacity or the cost is
negative or when an edge with the same ordered endpoint pair already
exists, and otherwise appends the new edge. -/
def add_edge (g : Graph) (u v : String) (capacity cost : Int) : Except Err Graph :=
  if capacity < 0 ∨ cost < 0 then .error .validationError
  else if g.any fun e => e.u == u && e.v == v then .error .validationError
  else .ok (g ++ [⟨u, v, capacity.toNat, cost⟩])

/-- No two edges share the same ordered endpoint pair. -/
def NoDupEdges (g : Graph) : Prop := (g.map fun e => (e.u, e.v)).Nodup

instance (g : Graph) : Decidable (NoDupEdges g) := by
  unfold NoDupEdges
  infer_instance

/-! ### Object-store model of Python graph aliasing

Modelled from the code (main.py): Python-level object semantics of
G.copy(), remove_edge and the node demand writes of min_cost_for_flow.
A store holds the live graph objects, each a pair of an edge list and a
node attribute list; copy appends an independent duplicate, and the
mutating operations act on one store index. -/

/-- Node attribute list (the demand attribute of min_cost_for_flow). -/
abbrev Attrs : Type := List (String × Int)

/-- One graph object: edge list with node attributes. -/
abbrev Obj : Type := Graph × Attrs

/-- The store of live graph objects. -/
abbrev Store : Type := List Obj

/-- Write-or-insert of one node attribute. -/
def setAttr : Attrs → String → Int → Attrs
  | [], w, dv => [(w, dv)]
  | (x, y) :: r, w, dv =>
    if x = w then (w, dv) :: r else (x, y) :: setAttr r w dv

/-- G.copy(): append an independent copy of object i to the store. -/
def copyAt (s : Store) (i : Nat) : Store := s ++ [s.getD i ([], [])]

/-- remove_edge on object i, in place. -/
def removeEdgeAt (s : Store) (i : Nat) (a b : String) : Store :=
  s.set i (removeEdge (s.getD i ([], [])).1 a b, (s.getD i ([], [])).2)

/-- Demand attribute write on object i, in place. -/
def setDemandAt (s : Store) (i : Nat) (w : String) (dv : Int) : Store :=
  s.set i ((s.getD i ([], [])).1, setAttr (s.getD i ([], [])).2 w dv)

/-- min_cost_for_flow at store level, embedded from main.py lines
108 to 115: copy the graph object, zero the demand of every node of the
copy, set the source and sink demands on the copy, then run the solver on
the copy.  Returns the final store together with the result. -/
def min_cost_for_flow_st (s : Store) (i : Nat) (amount : Nat) (src snk : String) :
    Store × Except Err (Int × Flow) :=
  let i2 := s.length
  let s1 := copyAt s i
  let g := (s1.getD i2 ([], [])).1
  let s2 := (nodesList g).foldl (fun acc w => setDemandAt acc i2 w 0) s1
  let s3 := setDemandAt (setDemandAt s2 i2 src (-(amount : Int))) i2 snk (amount : Int)
  (s3, min_cost_for_flow g amount src snk)

theorem getD_append_left {α : Type} (l : List α) (x d : α) (i : Nat)
    (h : i < l.length) : (l ++ [x]).getD i d = l.getD i d := by
  rw [List.getD_eq_getElem?_getD, List.getD_eq_getElem?_getD,
    List.getElem?_append, if_pos h]

theorem getD_set_ne {α : Type} (l : List α) (j i : Nat) (y d : α)
    (h : i ≠ j) : (l.set j y).getD i d = l.getD i d := by
  rw [List.getD_eq_getElem?_getD, List.getD_eq_getElem?_getD,
    List.getElem?_set_ne (fun hc => h hc.symm)]

theorem setDemandAt_preserve (s : Store) (i2 i : Nat) (w : String) (dv : Int)
    (h : i ≠ i2) : (setDemandAt s i2 w dv).getD i ([], []) = s.getD i ([], []) := by
  unfold setDemandAt
  exact getD_set_ne s i2 i _ _ h

theorem foldl_setDemand_preserve (i i2 : Nat) (h : i ≠ i2) :
    ∀ (l : List String) (s : Store),
      ((l.foldl (fun acc w => setDemandAt acc i2 w 0) s).getD i ([], [])) =
        s.getD i ([], []) := by
  intro l
  induction l with
  | nil => intro s; rfl
  | cons x l ih =>
    intro s
    rw [List.foldl_cons, ih, setDemandAt_preserve s i2 i x 0 h]

/-! ### The claims -/

set_option maxRecDepth 20000

/-- C1: on the baseline 8-node graph built from the default edge list,
the max-flow solver called with source N and sink S returns
flow_value = 80. -/
theorem c1_baseline_max_flow_eq_80 :
    (compute_max_flow (build_graph 6 1.2) "N" "S").1 = 80 := by decide

/-- C2: on the baseline graph with the single edge A to B removed, the
max-flow solver called with source N and sink S returns
flow_value = 60. -/
theorem c2_removed_AB_max_flow_eq_60 :
    (compute_max_flow (removeEdge (build_graph 6 1.2) "A" "B") "N" "S").1 = 60 := by decide

/-- C3: for every graph, every assignment returned by the max-flow solver
or by the min-cost-flow solver keeps the flow of every edge between 0 and
its capacity, and conserves flow at every node other than the source and
the sink. -/
theorem c3_solver_invariants (g : Graph) (s t : String) :
    (∀ (v : Int) (f : Flow), maximum_flow g s t = (v, f) →
      Feasible g f ∧ Conserves g f s t) ∧
    (∀ (amount : Nat) (c : Int) (f : Flow),
      min_cost_for_flow g amount s t = .ok (c, f) →
      Feasible g f ∧ Conserves g f s t) := by
  constructor
  · intro v f h
    simp only [maximum_flow] at h
    injection h with h1 h2
    subst h2
    have hg := maxFlowAssign_good g s t
    exact ⟨goodFlow_feasible g _ s t hg, goodFlow_conserves g _ s t hg⟩
  · intro amount c f h
    unfold min_cost_for_flow at h
    cases hmc : min_cost_flow g s t amount with
    | error e => rw [hmc] at h; exact absurd h (by simp [Except.map])
    | ok f0 =>
      rw [hmc] at h
      simp only [Except.map] at h
      injection h with h2
      injection h2 with h3 h4
      subst h4
      have hg : GoodFlow g f0 s t := by
        apply mcLoop_good g s t amount amount (zeroFlow g) f0 (goodFlow_zeroFlow g s t)
        exact hmc
      exact ⟨goodFlow_feasible g f0 s t hg, goodFlow_conserves g f0 s t hg⟩

/-- Witness for C3: the max-flow output on the baseline graph and the
min-cost output on a two-corridor graph satisfy both invariants. -/
theorem c3_solver_invariants_witness :
    (Feasible (build_graph 6 1.2) (maximum_flow (build_graph 6 1.2) "N" "S").2 ∧
      Conserves (build_graph 6 1.2) (maximum_flow (build_graph 6 1.2) "N" "S").2 "N" "S") ∧
    (Feasible [⟨"N", "A", 2, 3⟩, ⟨"A", "S", 2, 4⟩] [2, 2] ∧
      Conserves [⟨"N", "A", 2, 3⟩, ⟨"A", "S", 2, 4⟩] [2, 2] "N" "S") :=
  ⟨(c3_solver_invariants (build_graph 6 1.2) "N" "S").1
      (maximum_flow (build_graph 6 1.2) "N" "S").1
      (maximum_flow (build_graph 6 1.2) "N" "S").2 rfl,
   (c3_solver_invariants [⟨"N", "A", 2, 3⟩, ⟨"A", "S", 2, 4⟩] "N" "S").2 2 14
      [2, 2] (by rfl)⟩

/-- C4: requesting a min-cost flow of amount 90 on the baseline graph
(more than the true maximum flow 80, demand minus 90 at N and plus 90
at S) raises InfeasibleFlowError. -/
theorem c4_amount_90_infeasible :
    min_cost_for_flow (build_graph 6 1.2) 90 "N" "S" =
      .error .infeasibleFlowError := by rfl

/-- C5: for every graph, feeding the flow value just computed by the
max-flow solver into the min-cost-flow solver (demand minus value at the
source, plus value at the sink) never raises InfeasibleFlowError: the
call always returns an assignment. -/
theorem c5_pipeline_never_infeasible (g : Graph) (s t : String) (hst : s ≠ t) :
    ∃ pr, min_cost_for_flow g ((compute_max_flow g s t).1.toNat) s t = .ok pr := by
  obtain ⟨hgood, hv0, hnone⟩ := maxFlowAssign_spec g s t hst
  have h1 : (compute_max_flow g s t).1 = flowValue g (maxFlowAssign g s t) s := rfl
  have hveq : (((compute_max_flow g s t).1.toNat : Nat) : Int) =
      flowValue g (maxFlowAssign g s t) s := by
    rw [h1]
    exact Int.toNat_of_nonneg (h1 ▸ hv0)
  obtain ⟨fres, hres⟩ := mcLoop_reaches g s t hst (maxFlowAssign g s t) hgood
    ((compute_max_flow g s t).1.toNat) ((compute_max_flow g s t).1.toNat) (zeroFlow g)
    le_rfl (goodFlow_zeroFlow g s t)
    (by rw [flowValue_zeroFlow, hveq]; ring)
  refine ⟨(totalCostOf g fres, fres), ?_⟩
  show (min_cost_flow g s t ((compute_max_flow g s t).1.toNat)).map
    (fun f => (totalCostOf g f, f)) = _
  unfold min_cost_flow
  rw [hres]
  rfl

/-- Witness for C5 at the baseline graph with source N and sink S. -/
theorem c5_pipeline_never_infeasible_witness :
    ∃ pr, min_cost_for_flow (build_graph 6 1.2)
      ((compute_max_flow (build_graph 6 1.2) "N" "S").1.toNat) "N" "S" = .ok pr :=
  c5_pipeline_never_infeasible (build_graph 6 1.2) "N" "S" (by decide)

/-- C6: the stored integer cost of every built edge equals
round((length / speed + penalty) times 10) with penalty alpha_stairs
exactly on stairs; in particular edge S1 to D (length 10, speed 1.2,
alpha 6) gets cost 143 and the corridor edge B to C (length 8,
speed 1.2) gets cost 67. -/
theorem c6_cost_formula :
    (∀ (alphaStairs v : ℚ), build_graph alphaStairs v =
      default_edges.map fun sp =>
        ⟨sp.u, sp.v, sp.capacity,
         round ((sp.length / v + (if sp.kind = "stairs" then alphaStairs else 0)) * 10)⟩) ∧
    ((build_graph 6 1.2).filter fun e => e.u == "S1" && e.v == "D").map Edge.cost = [143] ∧
    ((build_graph 6 1.2).filter fun e => e.u == "B" && e.v == "C").map Edge.cost = [67] := by
  have hL : Lkind "stairs" = 10 := by
    unfold Lkind
    rw [if_neg (by decide), if_neg (by decide)]
  have h143 : edgeCost 6 1.2 (Lkind "stairs") "stairs" = 143 := by
    rw [hL]
    unfold edgeCost
    rw [if_pos rfl]
    norm_num [round_eq]
  have h67 : edgeCost 6 1.2 8 "corridor" = 67 := by
    unfold edgeCost
    rw [if_neg (by decide)]
    norm_num [round_eq]
  refine ⟨fun _ _ => rfl, ?_, ?_⟩
  · simp +decide [build_graph, default_edges, h143]
  · simp +decide [build_graph, default_edges, h67]

/-- C7: removing any edge from any graph never increases the maximum
flow value the solver reports between the same source and sink. -/
theorem c7_remove_edge_monotone (g : Graph) (a b s t : String) (hst : s ≠ t) :
    (maximum_flow (removeEdge g a b) s t).1 ≤ (maximum_flow g s t).1 := by
  have hrem : removeEdge g a b = g.filter (fun e => !(e.u == a && e.v == b)) := rfl
  have hg2 : GoodFlow (g.filter (fun e => !(e.u == a && e.v == b)))
      (maxFlowAssign (g.filter (fun e => !(e.u == a && e.v == b))) s t) s t :=
    maxFlowAssign_good _ s t
  obtain ⟨hgt, hvt⟩ := transport_good (fun e => !(e.u == a && e.v == b)) g
    (maxFlowAssign (g.filter (fun e => !(e.u == a && e.v == b))) s t) s t hg2
  obtain ⟨hg1, _, hnone⟩ := maxFlowAssign_spec g s t hst
  have hmax := noAug_maximal g (maxFlowAssign g s t) s t hg1 hnone _ hgt
  show flowValue (g.filter (fun e => !(e.u == a && e.v == b)))
    (maxFlowAssign (g.filter (fun e => !(e.u == a && e.v == b))) s t) s ≤
    flowValue g (maxFlowAssign g s t) s
  exact le_of_eq_of_le hvt.symm hmax

/-- Witness for C7: removing A to B on the baseline graph. -/
theorem c7_remove_edge_monotone_witness :
    (maximum_flow (removeEdge (build_graph 6 1.2) "A" "B") "N" "S").1 ≤
      (maximum_flow (build_graph 6 1.2) "N" "S").1 :=
  c7_remove_edge_monotone (build_graph 6 1.2) "A" "B" "N" "S" (by decide)

/-- C8: calling the max-flow solver with a source or sink that is not a
node of the graph is not an error: it returns flow value 0 with the
all-zero assignment. -/
theorem c8_missing_node_yields_zero (g : Graph) (s t : String) (hst : s ≠ t)
    (hmiss : s ∉ nodesList g ∨ t ∉ nodesList g) :
    maximum_flow g s t = (0, zeroFlow g) := by
  have hassign : maxFlowAssign g s t = zeroFlow g := by
    unfold maxFlowAssign
    exact mfLoop_none_red g s t (totalCap g) (zeroFlow g)
      (findAugPath_none_of_missing g (zeroFlow g) s t hst hmiss)
  show (flowValue g (maxFlowAssign g s t) s, maxFlowAssign g s t) = (0, zeroFlow g)
  rw [hassign, flowValue_zeroFlow]

/-- Witness for C8: the node X does not exist in the baseline graph. -/
theorem c8_missing_node_yields_zero_witness :
    ("X" : String) ≠ "S" ∧
    ("X" ∉ nodesList (build_graph 6 1.2) ∨ "S" ∉ nodesList (build_graph 6 1.2)) ∧
    maximum_flow (build_graph 6 1.2) "X" "S" = (0, zeroFlow (build_graph 6 1.2)) :=
  ⟨by decide, by decide,
   c8_missing_node_yields_zero (build_graph 6 1.2) "X" "S" (by decide) (by decide)⟩

/-- C9: adding an edge whose ordered endpoint pair already exists, or
whose capacity or cost is negative, fails with ValidationError; graphs
built through add_edge therefore never hold two edges with the same
ordered pair. -/
theorem c9_add_edge_validation (g : Graph) (u v : String) (capacity cost : Int) :
    ((∃ e ∈ g, e.u = u ∧ e.v = v) ∨ capacity < 0 ∨ cost < 0 →
      add_edge g u v capacity cost = .error .validationError) ∧
    (∀ g2, add_edge g u v capacity cost = .ok g2 → NoDupEdges g → NoDupEdges g2) := by
  constructor
  · intro h
    unfold add_edge
    by_cases hneg : capacity < 0 ∨ cost < 0
    · rw [if_pos hneg]
    · rw [if_neg hneg]
      rcases h with hdup | hneg2
      · obtain ⟨e, he, heq⟩ := hdup
        rw [if_pos (List.any_eq_true.2 ⟨e, he, by simp [heq.1, heq.2]⟩)]
      · exact absurd hneg2 hneg
  · intro g2 h hnd
    unfold add_edge at h
    by_cases h1 : capacity < 0 ∨ cost < 0
    · rw [if_pos h1] at h
      exact absurd h (by simp)
    · rw [if_neg h1] at h
      by_cases h2 : (g.any fun e => e.u == u && e.v == v) = true
      · rw [if_pos h2] at h
        exact absurd h (by simp)
      · rw [if_neg h2] at h
        injection h with h
        subst h
        unfold NoDupEdges at hnd ⊢
        rw [List.map_append]
        rw [List.nodup_append]
        refine ⟨hnd, by simp, ?_⟩
        simp only [List.map_cons, List.map_nil, List.disjoint_singleton]
        intro hmem
        obtain ⟨e, he, heq⟩ := List.mem_map.1 hmem
        apply h2
        apply List.any_eq_true.2
        refine ⟨e, he, ?_⟩
        have h3 : e.u = u := congrArg Prod.fst heq
        have h4 : e.v = v := congrArg Prod.snd heq
        simp [h3, h4]

/-- Witness for C9: a duplicate of the existing edge N to A is rejected,
and adding a fresh edge preserves distinctness of ordered pairs. -/
theorem c9_add_edge_validation_witness :
    add_edge (build_graph 6 1.2) "N" "A" 5 7 = .error .validationError :=
  (c9_add_edge_validation (build_graph 6 1.2) "N" "A" 5 7).1
    (Or.inl (by decide))

/-- C10: cloning a graph object and removing an edge from the clone, or
letting the min-cost wrapper attach demands to its internal clone, never
changes the original object, so results previously computed from it are
unchanged. -/
theorem c10_clone_isolation (s : Store) (i : Nat) (a b src snk : String)
    (amount : Nat) (h : i < s.length) :
    (removeEdgeAt (copyAt s i) s.length a b).getD i ([], []) = s.getD i ([], []) ∧
    maximum_flow ((removeEdgeAt (copyAt s i) s.length a b).getD i ([], [])).1 src snk =
      maximum_flow (s.getD i ([], [])).1 src snk ∧
    (min_cost_for_flow_st s i amount src snk).1.getD i ([], []) = s.getD i ([], []) := by
  have hne : i ≠ s.length := by omega
  have hcopyKeep : (copyAt s i).getD i ([], []) = s.getD i ([], []) :=
    getD_append_left s _ _ i h
  have h1 : (removeEdgeAt (copyAt s i) s.length a b).getD i ([], []) =
      s.getD i ([], []) := by
    unfold removeEdgeAt
    rw [getD_set_ne _ _ _ _ _ hne]
    exact hcopyKeep
  refine ⟨h1, by rw [h1], ?_⟩
  show (setDemandAt (setDemandAt ((nodesList ((copyAt s i).getD s.length ([], [])).1).foldl
      (fun acc w => setDemandAt acc s.length w 0) (copyAt s i)) s.length src
      (-(amount : Int))) s.length snk (amount : Int)).getD i ([], []) = s.getD i ([], [])
  rw [setDemandAt_preserve _ _ _ _ _ hne, setDemandAt_preserve _ _ _ _ _ hne,
    foldl_setDemand_preserve i s.length hne _ _, hcopyKeep]

/-- Witness for C10 on a store holding the baseline graph. -/
theorem c10_clone_isolation_witness :
    (removeEdgeAt (copyAt [(build_graph 6 1.2, [])] 0) 1 "A" "B").getD 0 ([], []) =
      [(build_graph 6 1.2, ([] : Attrs))].getD 0 ([], []) ∧
    maximum_flow ((removeEdgeAt (copyAt [(build_graph 6 1.2, [])] 0) 1 "A" "B").getD 0
        ([], [])).1 "N" "S" =
      maximum_flow ([(build_graph 6 1.2, ([] : Attrs))].getD 0 ([], [])).1 "N" "S" ∧
    (min_cost_for_flow_st [(build_graph 6 1.2, [])] 0 80 "N" "S").1.getD 0 ([], []) =
      [(build_graph 6 1.2, ([] : Attrs))].getD 0 ([], []) :=
  c10_clone_isolation [(build_graph 6 1.2, [])] 0 "A" "B" "N" "S" 80 (by decide)

end Evac
